import Mathlib

/-!
# DPLL_Solver.c++ : a shallow embedding of the solving engine

The C++ aliases `Var`, `Lit` are `int`; `Clause`, `Asgmt` are `vector<Lit>` and
`Formula` is `vector<Clause>`.  Literals are modelled as mathematical integers:
the constructor only stores literals with `-numVar ≤ lit ≤ numVar`, so negation
and `abs` never leave the range of `int` on a parsed formula.
-/

namespace DPLL

abbrev Var := Int
abbrev Lit := Int
abbrev Clause := List Lit
abbrev Formula := List Clause
abbrev Asgmt := List Lit

/-! ### The operations of the solver that need no termination argument -/

/-- `Solver::getVar`: the variable of a literal, `abs(lit)`. -/
def getVar (lit : Lit) : Var := |lit|

/-- `Solver::getLit`: `value ? var : -var`. -/
def getLit (var : Lit) (value : Bool) : Lit := if value then var else -var

/-- The loop of `Solver::printAsgmt`: the signed literals written for the
variables `1..numVar`, in order. -/
def printAsgmt (numVar : Int) (satAsgmt : Asgmt) : List Lit :=
  List.map
    (fun i : Nat => if -((i : Int) + 1) ∈ satAsgmt then -((i : Int) + 1) else (i : Int) + 1)
    (List.range numVar.toNat)

/-- The scan of the `for` loop in `Solver::BCP`: starting at `begin()`, the
iterator advances over clauses whose size is not one and stops at the first
clause of size exactly one, whose `front()` is taken. -/
def firstUnit : Formula → Option Lit
  | [] => none
  | c :: rest =>
    match c with
    | [l] => some l
    | _ => firstUnit rest

/-- The loop of `Solver::haveConflict`, `unitClause` being the local vector of
unit literals met so far. -/
def haveConflictFrom (unitClause : Clause) : Formula → Bool
  | [] => false
  | clause :: rest =>
    match clause with
    | [] => true
    | [l] =>
      if unitClause.count (-l) ≠ 0 then true
      else haveConflictFrom (unitClause ++ [l]) rest
    | _ =>
      if clause.any (fun lit => decide (-lit ∈ clause)) then true
      else haveConflictFrom unitClause rest

/-- `Solver::haveConflict`. -/
def haveConflict (F : Formula) : Bool := haveConflictFrom [] F

/-- `Solver::chooseVar`: `getVar(_formula.front().front())`; `none` stands for
a call of `front()` on an empty vector. -/
def chooseVar : Formula → Option Var
  | (l :: _) :: _ => some (getVar l)
  | _ => none

/-! ### Notions used to state the properties -/

/-- Each variable is decided at most once in the assignment. -/
def DecidedOnce (A : Asgmt) : Prop := (A.map getVar).Nodup

instance (A : Asgmt) : Decidable (DecidedOnce A) := by
  unfold DecidedOnce; infer_instance

/-- The assignment holds no literal twice and no literal together with its
negation, and its entries have pairwise different variables. -/
def NeverTwice (A : Asgmt) : Prop :=
  DecidedOnce A ∧ A.Nodup ∧ ∀ a ∈ A, -a ∉ A

/-- Truth of a literal: a positive literal is true when its variable is, a
negative literal when its variable is false. -/
def litTrue (val : Var → Bool) (l : Lit) : Bool :=
  if 0 < l then val l else if l < 0 then !(val (-l)) else false

/-- Every clause of the formula holds at least one true literal. -/
def Satisfies (val : Var → Bool) (F : Formula) : Prop :=
  ∀ c ∈ F, ∃ l ∈ c, litTrue val l = true

/-- The input condition checked by the constructor: every literal is nonzero
and its magnitude is at most `numVar`. -/
def WellFormed (numVar : Int) (F : Formula) : Prop :=
  ∀ c ∈ F, ∀ l ∈ c, l ≠ 0 ∧ |l| ≤ numVar

/-- No clause holds a literal together with its negation. -/
def NoTautology (F : Formula) : Prop :=
  ∀ c ∈ F, ∀ l ∈ c, -l ∉ c

/-- The valuation read off the rendered line: a variable is true exactly when
`printAsgmt` writes it with positive sign. -/
def renderedVal (numVar : Int) (satAsgmt : Asgmt) : Var → Bool :=
  fun v => decide (v ∈ printAsgmt numVar satAsgmt)

/-- The declarative reading of assignment application: keep the clauses that
hold no literal of the assignment, and in each of them keep the literals whose
negation is not in the assignment. -/
def applySpec (F : Formula) (A : Asgmt) : Formula :=
  (F.filter (fun c => decide (∀ a ∈ A, a ∉ c))).map
    (fun c => c.filter (fun l => decide (-l ∉ A)))

/-! ### Assignment application -/

/-- Clause count plus literal count of a formula. -/
def fsize (F : Formula) : Nat := F.length + (F.map List.length).sum

theorem fsize_cons (c : Clause) (F : Formula) :
    fsize (c :: F) = fsize F + c.length + 1 := by
  simp [fsize]; omega

/-- The inner loop of `Solver::applyAsgmt` for one entry `assign` of the
assignment, the iterator standing at the head of the list: a clause holding
`assign` is erased; otherwise the first occurrence of `-assign` is erased from
the clause and the same clause is examined again; otherwise the iterator
advances. -/
def applyLit (assign : Lit) : Formula → Formula
  | [] => []
  | c :: rest =>
    if assign ∈ c then applyLit assign rest
    else if h : -assign ∈ c then applyLit assign (c.erase (-assign) :: rest)
    else c :: applyLit assign rest
termination_by F => fsize F
decreasing_by
  · simp [fsize_cons]; omega
  · have := List.length_erase_of_mem h
    have hpos : 0 < c.length := List.length_pos_of_mem h
    simp [fsize_cons]; omega
  · simp [fsize_cons]; omega

/-- `Solver::applyAsgmt`: the outer loop runs over the entries of the
assignment in order, each one rewriting the formula in place. -/
def applyAsgmt (F : Formula) (assignMap : Asgmt) : Formula :=
  assignMap.foldl (fun G assign => applyLit assign G) F

/-! ### The size measure under simplification -/

theorem applyAsgmt_nil (F : Formula) : applyAsgmt F [] = F := rfl

theorem applyAsgmt_cons (F : Formula) (a : Lit) (A : Asgmt) :
    applyAsgmt F (a :: A) = applyAsgmt (applyLit a F) A := rfl

theorem applyAsgmt_append (F : Formula) (A B : Asgmt) :
    applyAsgmt F (A ++ B) = applyAsgmt (applyAsgmt F A) B := by
  simp [applyAsgmt, List.foldl_append]

theorem applyAsgmt_snoc (F : Formula) (A : Asgmt) (a : Lit) :
    applyAsgmt F (A ++ [a]) = applyLit a (applyAsgmt F A) := by
  simp [applyAsgmt, List.foldl_append]

theorem applyLit_of_absent (a : Lit) (F : Formula)
    (h : ∀ c ∈ F, a ∉ c ∧ -a ∉ c) : applyLit a F = F := by
  induction F with
  | nil => simp [applyLit]
  | cons c rest ih =>
    have hc := h c (List.mem_cons_self _ _)
    rw [applyLit, if_neg hc.1, dif_neg hc.2, ih (fun d hd => h d (List.mem_cons_of_mem _ hd))]

theorem fsize_applyLit_le (a : Lit) (F : Formula) : fsize (applyLit a F) ≤ fsize F := by
  induction F using applyLit.induct a with
  | case1 => simp [applyLit]
  | case2 c rest h ih =>
    rw [applyLit, if_pos h, fsize_cons]; omega
  | case3 c rest h1 h2 ih =>
    rw [applyLit, if_neg h1, dif_pos h2]
    have := List.length_erase_of_mem h2
    rw [fsize_cons] at ih ⊢; omega
  | case4 c rest h1 h2 ih =>
    rw [applyLit, if_neg h1, dif_neg h2, fsize_cons, fsize_cons]; omega

theorem fsize_applyLit_lt (a : Lit) (F : Formula)
    (h : ∃ c ∈ F, a ∈ c ∨ -a ∈ c) : fsize (applyLit a F) < fsize F := by
  induction F using applyLit.induct a with
  | case1 => simp at h
  | case2 c rest hc _ =>
    rw [applyLit, if_pos hc, fsize_cons]
    have := fsize_applyLit_le a rest
    omega
  | case3 c rest h1 h2 _ =>
    rw [applyLit, if_neg h1, dif_pos h2]
    have h3 := fsize_applyLit_le a (c.erase (-a) :: rest)
    have h4 := List.length_erase_of_mem h2
    have h5 : 0 < c.length := List.length_pos_of_mem h2
    rw [fsize_cons] at h3 ⊢; omega
  | case4 c rest h1 h2 ih =>
    rw [applyLit, if_neg h1, dif_neg h2, fsize_cons, fsize_cons]
    obtain ⟨d, hd, hd2⟩ := h
    rcases List.mem_cons.1 hd with e | hd3
    · subst e
      rcases hd2 with h | h
      · exact absurd h h1
      · exact absurd h h2
    · have := ih ⟨d, hd3, hd2⟩
      omega

theorem fsize_applyAsgmt_le (F : Formula) (A : Asgmt) : fsize (applyAsgmt F A) ≤ fsize F := by
  induction A generalizing F with
  | nil => exact le_refl _
  | cons a A ih =>
    rw [applyAsgmt_cons]
    exact le_trans (ih _) (fsize_applyLit_le a F)

theorem fsize_applyAsgmt_lt (F : Formula) (A : Asgmt)
    (h : ∃ a ∈ A, ∃ c ∈ F, a ∈ c ∨ -a ∈ c) : fsize (applyAsgmt F A) < fsize F := by
  induction A generalizing F with
  | nil => simp at h
  | cons a A ih =>
    rw [applyAsgmt_cons]
    by_cases hq : ∃ c ∈ F, a ∈ c ∨ -a ∈ c
    · exact lt_of_le_of_lt (fsize_applyAsgmt_le _ A) (fsize_applyLit_lt a F hq)
    · have hF : applyLit a F = F := by
        apply applyLit_of_absent
        intro c hc
        constructor
        · exact fun hm => hq ⟨c, hc, Or.inl hm⟩
        · exact fun hm => hq ⟨c, hc, Or.inr hm⟩
      rw [hF]
      apply ih
      obtain ⟨b, hb, c, hc, hbc⟩ := h
      rcases List.mem_cons.1 hb with e | hb2
      · subst e
        exact absurd ⟨c, hc, hbc⟩ hq
      · exact ⟨b, hb2, c, hc, hbc⟩

theorem firstUnit_mem {W : Formula} {l : Lit} (h : firstUnit W = some l) : [l] ∈ W := by
  induction W with
  | nil => simp [firstUnit] at h
  | cons c rest ih =>
    unfold firstUnit at h
    split at h
    · simp only [Option.some.injEq] at h
      subst h
      exact List.mem_cons_self _ _
    · exact List.mem_cons_of_mem _ (ih h)

/-! ### Unit propagation -/

/-- The `for` loop of `Solver::BCP` on the working copy `W`: when the scan
finds a unit clause its literal is pushed onto the assignment, the whole
assignment is applied to the working copy and the scan restarts; when the scan
reaches `end()` the working copy and the grown assignment are the result. -/
def bcpLoop (W : Formula) (assignMap : Asgmt) : Formula × Asgmt :=
  match h : firstUnit W with
  | none => (W, assignMap)
  | some l => bcpLoop (applyAsgmt W (assignMap ++ [l])) (assignMap ++ [l])
termination_by fsize W
decreasing_by
  apply fsize_applyAsgmt_lt
  exact ⟨l, by simp, [l], firstUnit_mem h, Or.inl (by simp)⟩

/-- `Solver::BCP`: the formula is taken by value, the assignment by reference;
the result pairs the returned formula with the assignment as the call leaves
it. -/
def BCP (F : Formula) (assignMap : Asgmt) : Formula × Asgmt :=
  bcpLoop (applyAsgmt F assignMap) assignMap

/-- Propagation as the specification describes it: each time a unit clause is
found, its literal is appended and the grown assignment is applied to the
original formula `F`, not to the working copy. -/
def bcpSpec (F : Formula) (A : Asgmt) : Formula × Asgmt :=
  match h : firstUnit (applyAsgmt F A) with
  | none => (applyAsgmt F A, A)
  | some l => bcpSpec F (A ++ [l])
termination_by fsize (applyAsgmt F A)
decreasing_by
  rw [applyAsgmt_snoc]
  exact fsize_applyLit_lt l _ ⟨[l], firstUnit_mem h, Or.inl (List.mem_singleton_self l)⟩

theorem fsize_bcpLoop_le (W : Formula) (A : Asgmt) : fsize (bcpLoop W A).1 ≤ fsize W := by
  induction W, A using bcpLoop.induct with
  | case1 W A h =>
    rw [bcpLoop]
    split
    · exact le_refl _
    · rename_i l hl
      rw [h] at hl
      cases hl
  | case2 W A l h ih =>
    rw [bcpLoop]
    split
    · exact le_refl _
    · rename_i l2 hl
      rw [h] at hl
      cases hl
      exact le_trans ih (fsize_applyAsgmt_le _ _)

theorem fsize_BCP_le (F : Formula) (A : Asgmt) :
    fsize (BCP F A).1 ≤ fsize (applyAsgmt F A) :=
  fsize_bcpLoop_le _ _

theorem chooseVar_some {R : Formula} {v : Var} (h : chooseVar R = some v) :
    ∃ l c rest, R = (l :: c) :: rest ∧ v = |l| := by
  match R, h with
  | (l :: c) :: rest, h =>
    simp only [chooseVar, getVar, Option.some.injEq] at h
    exact ⟨l, c, rest, rfl, h.symm⟩

theorem fsize_branch_lt {R : Formula} {v : Var} (h : chooseVar R = some v)
    (A : Asgmt) (value : Bool) :
    fsize (applyAsgmt R (A ++ [getLit v value])) < fsize R := by
  obtain ⟨l, c, rest, rfl, hv⟩ := chooseVar_some h
  apply fsize_applyAsgmt_lt
  refine ⟨getLit v value, by simp, l :: c, List.mem_cons_self _ _, ?_⟩
  have hl : l = v ∨ l = -v := by
    rcases abs_choice l with e | e
    · left; rw [hv, e]
    · right; rw [hv, e, neg_neg]
  cases value <;> rcases hl with e | e <;> simp [getLit, e]

/-! ### The search -/

/-- `Solver::solve(Formula, Asgmt)`.  The member `satAsgmt` is threaded through
as the third argument and returned next to the boolean (`SAT` is `true`,
`UNSAT` is `false`); `none` stands for `chooseVar` reading the front of an
empty vector. -/
def solve (F : Formula) (assignMap : Asgmt) (satAsgmt : Asgmt) : Option (Bool × Asgmt) :=
  if (BCP F assignMap).1.length = 0 then some (true, (BCP F assignMap).2)
  else if haveConflict (BCP F assignMap).1 then some (false, satAsgmt)
  else
    match h : chooseVar (BCP F assignMap).1 with
    | none => none
    | some selectedVar =>
      match solve (BCP F assignMap).1 ((BCP F assignMap).2 ++ [getLit selectedVar true])
          satAsgmt with
      | none => none
      | some (true, s) => some (true, s)
      | some (false, s) =>
        solve (BCP F assignMap).1 ((BCP F assignMap).2 ++ [getLit selectedVar false]) s
termination_by fsize (applyAsgmt F assignMap)
decreasing_by
  · exact lt_of_lt_of_le (fsize_branch_lt h _ true) (fsize_BCP_le F assignMap)
  · exact lt_of_lt_of_le (fsize_branch_lt h _ false) (fsize_BCP_le F assignMap)

/-- The recursion of `solve` with a bound on the depth of nested calls: `fuel`
counts the calls that may be stacked, the current one included.  The outer
`none` means the bound was hit; the inner value is the result of `solve`. -/
def solveFuel : Nat → Formula → Asgmt → Asgmt → Option (Option (Bool × Asgmt))
  | 0, _, _, _ => none
  | fuel + 1, F, assignMap, satAsgmt =>
    if (BCP F assignMap).1.length = 0 then some (some (true, (BCP F assignMap).2))
    else if haveConflict (BCP F assignMap).1 then some (some (false, satAsgmt))
    else
      match chooseVar (BCP F assignMap).1 with
      | none => some none
      | some selectedVar =>
        match solveFuel fuel (BCP F assignMap).1
            ((BCP F assignMap).2 ++ [getLit selectedVar true]) satAsgmt with
        | none => none
        | some none => some none
        | some (some (true, s)) => some (some (true, s))
        | some (some (false, s)) =>
          solveFuel fuel (BCP F assignMap).1
            ((BCP F assignMap).2 ++ [getLit selectedVar false]) s

/-- The calls of `solve` made while solving `F0` from the empty assignment with
stored assignment `st0`: the root call; the first recursive call of a call that
reaches `chooseVar`; and its second recursive call, made when the first one
returned `UNSAT`. -/
inductive Call (F0 : Formula) (st0 : Asgmt) : Formula → Asgmt → Asgmt → Prop
  | root : Call F0 st0 F0 [] st0
  | first {F : Formula} {A st : Asgmt} {v : Var} :
      Call F0 st0 F A st → ¬ (BCP F A).1.length = 0 → ¬ haveConflict (BCP F A).1 = true →
      chooseVar (BCP F A).1 = some v →
      Call F0 st0 (BCP F A).1 ((BCP F A).2 ++ [getLit v true]) st
  | second {F : Formula} {A st s : Asgmt} {v : Var} :
      Call F0 st0 F A st → ¬ (BCP F A).1.length = 0 → ¬ haveConflict (BCP F A).1 = true →
      chooseVar (BCP F A).1 = some v →
      solve (BCP F A).1 ((BCP F A).2 ++ [getLit v true]) st = some (false, s) →
      Call F0 st0 (BCP F A).1 ((BCP F A).2 ++ [getLit v false]) s

/-- The states of the `for` loop of `BCP F A` at the start of a scan: the
working copy and the assignment after the initial `applyAsgmt`, and after each
restart. -/
inductive BcpState (F : Formula) (A : Asgmt) : Formula → Asgmt → Prop
  | init : BcpState F A (applyAsgmt F A) A
  | restart {W : Formula} {B : Asgmt} {l : Lit} :
      BcpState F A W B → firstUnit W = some l →
      BcpState F A (applyAsgmt W (B ++ [l])) (B ++ [l])

/-- The variables that occur in a formula. -/
def varsOf (F : Formula) : Finset Nat := (F.flatten.map Int.natAbs).toFinset

/-! ### The constructor -/

/-- The extraction `fn >> literal` succeeds on a token that denotes a value of
`int`; on a numeral outside that range it sets the fail state of the stream. -/
def readsAsInt (t : Int) : Bool := decide (-2 ^ 31 ≤ t ∧ t < 2 ^ 31)

/-- The tokens read before the stream ends or an extraction fails. -/
def readTokens (tokens : List Int) : List Int := tokens.takeWhile readsAsInt

/-- The `while` loop of `Solver::Solver` on the integers that the tokens after
`numVar` and `numClause` denote (a token that is no numeral ends the list).
The extraction `fn >> literal` comes first: when it fails, at the end of the
stream or on a token outside the range of `int`, the loop ends.  The test
`formula.size() < numClause` compares a `size_t` with an `int`, so `numClause`
is converted to the unsigned 64-bit type first.  `Except.error 1` is
`exit(1)`. -/
def parseLoop (numVar numClause : Int) : Formula → Clause → List Int → Except Nat Formula
  | formula, _, [] => Except.ok formula
  | formula, clause, literal :: rest =>
    if readsAsInt literal = true then
      if (formula.length : Int) < numClause % 2 ^ 64 then
        if literal ≠ 0 then
          if literal > numVar ∨ literal < -numVar then Except.error 1
          else parseLoop numVar numClause formula (clause ++ [literal]) rest
        else parseLoop numVar numClause (formula ++ [clause]) [] rest
      else Except.ok formula
    else Except.ok formula

/-- `Solver::Solver`: the formula built from the token stream, or `exit(1)`. -/
def Solver (numVar numClause : Int) (tokens : List Int) : Except Nat Formula :=
  parseLoop numVar numClause [] [] tokens

/-- Some nonzero token of magnitude above `numVar` is read while fewer than
`numClause` clauses have been completed, a clause being completed by each zero
token. -/
def BadTokenRead (numVar numClause : Int) (tokens : List Int) : Prop :=
  ∃ pre lit post, tokens = pre ++ lit :: post ∧ lit ≠ 0 ∧ numVar < |lit| ∧
    (pre.count 0 : Int) < numClause

/-! ## Properties of the operations

### The inner loop of `applyAsgmt` as a filter -/

theorem filter_ne_erase (x : Lit) (c : Clause) :
    (c.erase x).filter (fun l => decide (l ≠ x)) = c.filter (fun l => decide (l ≠ x)) := by
  induction c with
  | nil => rfl
  | cons y ys ih =>
    by_cases hy : y = x
    · subst hy
      simp
    · rw [List.erase_cons_tail (by simpa using hy)]
      simp only [List.filter_cons, ih]

theorem filter_ne_eq_self (x : Lit) (c : Clause) (h : x ∉ c) :
    c.filter (fun l => decide (l ≠ x)) = c := by
  rw [List.filter_eq_self]
  intro l hl
  have : l ≠ x := fun e => h (e ▸ hl)
  simpa using this

/-- One pass of the inner loop, written as a filter over clauses followed by a
filter inside every kept clause. -/
theorem applyLit_eq (a : Lit) (F : Formula) :
    applyLit a F =
      (F.filter (fun c => decide (a ∉ c))).map (fun c => c.filter (fun l => decide (l ≠ -a))) := by
  induction F using applyLit.induct a with
  | case1 => simp [applyLit]
  | case2 c rest h ih =>
    rw [applyLit, if_pos h, ih]
    simp [List.filter_cons, h]
  | case3 c rest h1 h2 ih =>
    rw [applyLit, if_neg h1, dif_pos h2, ih]
    have h3 : a ∉ c.erase (-a) := fun h => h1 (List.mem_of_mem_erase h)
    simp only [List.filter_cons, h1, h3, not_false_eq_true, decide_True, if_true, List.map_cons]
    rw [filter_ne_erase]
  | case4 c rest h1 h2 ih =>
    rw [applyLit, if_neg h1, dif_neg h2, ih]
    simp only [List.filter_cons, h1, not_false_eq_true, decide_True, if_true, List.map_cons]
    rw [filter_ne_eq_self _ _ h2]

theorem firstUnit_none {W : Formula} (h : firstUnit W = none) : ∀ c ∈ W, c.length ≠ 1 := by
  induction W with
  | nil => simp
  | cons c rest ih =>
    unfold firstUnit at h
    split at h
    · simp at h
    · rename_i hne
      intro d hd
      rcases List.mem_cons.1 hd with e | hd2
      · subst e
        intro hlen
        obtain ⟨l, hl⟩ := List.length_eq_one.1 hlen
        exact hne l hl
      · exact ih h d hd2

/-! ### Structure of `applyAsgmt` -/

theorem mem_applyLit {a : Lit} {F : Formula} {d : Clause} (h : d ∈ applyLit a F) :
    ∃ c ∈ F, a ∉ c ∧ d = c.filter (fun l => decide (l ≠ -a)) := by
  rw [applyLit_eq, List.mem_map] at h
  obtain ⟨c, hc, rfl⟩ := h
  rw [List.mem_filter] at hc
  exact ⟨c, hc.1, by simpa using hc.2, rfl⟩

theorem applyLit_absent (a : Lit) (F : Formula) :
    ∀ d ∈ applyLit a F, a ∉ d ∧ -a ∉ d := by
  intro d hd
  obtain ⟨c, _, hac, rfl⟩ := mem_applyLit hd
  constructor
  · exact fun h => hac (List.mem_of_mem_filter h)
  · intro h
    have := (List.mem_filter.1 h).2
    simp at this

theorem applyLit_keeps_absent (a x : Lit) (F : Formula) (h : ∀ c ∈ F, x ∉ c) :
    ∀ d ∈ applyLit a F, x ∉ d := by
  intro d hd
  obtain ⟨c, hc, _, rfl⟩ := mem_applyLit hd
  exact fun hx => h c hc (List.mem_of_mem_filter hx)

theorem applyAsgmt_keeps_absent (A : Asgmt) (x : Lit) (F : Formula) (h : ∀ c ∈ F, x ∉ c) :
    ∀ d ∈ applyAsgmt F A, x ∉ d := by
  induction A generalizing F with
  | nil => exact h
  | cons a A ih =>
    rw [applyAsgmt_cons]
    exact ih _ (applyLit_keeps_absent a x F h)

/-- After applying an assignment, no clause holds one of its literals or the
negation of one. -/
theorem applyAsgmt_absent (F : Formula) (A : Asgmt) :
    ∀ d ∈ applyAsgmt F A, ∀ a ∈ A, a ∉ d ∧ -a ∉ d := by
  induction A generalizing F with
  | nil => intro d _ a ha; cases ha
  | cons b A ih =>
    intro d hd a ha
    rw [applyAsgmt_cons] at hd
    rcases List.mem_cons.1 ha with e | ha2
    · subst e
      exact ⟨applyAsgmt_keeps_absent A a _ (fun c hc => (applyLit_absent a F c hc).1) d hd,
        applyAsgmt_keeps_absent A (-a) _ (fun c hc => (applyLit_absent a F c hc).2) d hd⟩
    · exact ih _ d hd a ha2

theorem applyAsgmt_of_absent (F : Formula) (A : Asgmt)
    (h : ∀ d ∈ F, ∀ a ∈ A, a ∉ d ∧ -a ∉ d) : applyAsgmt F A = F := by
  induction A with
  | nil => rfl
  | cons b A ih =>
    rw [applyAsgmt_cons, applyLit_of_absent b F (fun c hc => h c hc b (List.mem_cons_self _ _))]
    exact ih (fun d hd a ha => h d hd a (List.mem_cons_of_mem _ ha))

theorem applyAsgmt_idem (F : Formula) (A : Asgmt) :
    applyAsgmt (applyAsgmt F A) A = applyAsgmt F A :=
  applyAsgmt_of_absent _ _ (applyAsgmt_absent F A)

theorem decidedOnce_cons {a : Lit} {A : Asgmt} (h : DecidedOnce (a :: A)) :
    DecidedOnce A ∧ ∀ b ∈ A, b ≠ a ∧ b ≠ -a := by
  unfold DecidedOnce at h ⊢
  rw [List.map_cons, List.nodup_cons] at h
  refine ⟨h.2, fun b hb => ⟨?_, ?_⟩⟩
  · rintro rfl
    exact h.1 (List.mem_map_of_mem _ hb)
  · rintro rfl
    apply h.1
    have : getVar a = getVar (-a) := by simp [getVar]
    rw [this]
    exact List.mem_map_of_mem _ hb

theorem applySpec_nil (F : Formula) : applySpec F [] = F := by
  simp [applySpec]

theorem applySpec_cons (F : Formula) (a : Lit) (A : Asgmt) (h : ∀ b ∈ A, b ≠ a ∧ b ≠ -a) :
    applySpec (applyLit a F) A = applySpec F (a :: A) := by
  rw [applyLit_eq]
  induction F with
  | nil => simp [applySpec]
  | cons c rest ih =>
    unfold applySpec at ih ⊢
    by_cases hac : a ∈ c
    · have h1 : ¬ ∀ x ∈ a :: A, x ∉ c := fun hx => hx a (List.mem_cons_self _ _) hac
      simp only [List.filter_cons, hac, h1, not_true_eq_false, decide_False, Bool.false_eq_true,
        if_false]
      exact ih
    · have h2 : (∀ x ∈ A, x ∉ c.filter (fun l => decide (l ≠ -a))) ↔ ∀ x ∈ a :: A, x ∉ c := by
        constructor
        · intro hx x hxA hxc
          rcases List.mem_cons.1 hxA with e | hxA2
          · exact hac (e ▸ hxc)
          · apply hx x hxA2
            rw [List.mem_filter]
            exact ⟨hxc, by simpa using (h x hxA2).2⟩
        · intro hx x hxA hxc
          exact hx x (List.mem_cons_of_mem _ hxA) (List.mem_of_mem_filter hxc)
      have h3 : (c.filter (fun l => decide (l ≠ -a))).filter (fun l => decide (-l ∉ A))
          = c.filter (fun l => decide (-l ∉ a :: A)) := by
        rw [List.filter_filter]
        apply List.filter_congr
        intro l _
        have : l = -a ↔ -l = a := neg_eq_iff_eq_neg.symm
        simp [List.mem_cons, this, Bool.and_comm]
      have e1 : (fun c : Clause => decide (a ∉ c)) c = true := decide_eq_true hac
      rw [@List.filter_cons_of_pos _ (fun c : Clause => decide (a ∉ c)) c rest e1, List.map_cons]
      by_cases hq : ∀ x ∈ a :: A, x ∉ c
      · have e2 : (fun c : Clause => decide (∀ x ∈ A, x ∉ c))
            (c.filter (fun l => decide (l ≠ -a))) = true := decide_eq_true (h2.2 hq)
        have e3 : (fun c : Clause => decide (∀ x ∈ a :: A, x ∉ c)) c = true := decide_eq_true hq
        rw [@List.filter_cons_of_pos _ (fun c : Clause => decide (∀ x ∈ A, x ∉ c)) _ _ e2,
          @List.filter_cons_of_pos _ (fun c : Clause => decide (∀ x ∈ a :: A, x ∉ c)) _ _ e3,
          List.map_cons, List.map_cons, h3, ih]
      · have e2 : ¬ (fun c : Clause => decide (∀ x ∈ A, x ∉ c))
            (c.filter (fun l => decide (l ≠ -a))) = true := by
          intro hx
          exact hq (h2.1 (of_decide_eq_true hx))
        have e3 : ¬ (fun c : Clause => decide (∀ x ∈ a :: A, x ∉ c)) c = true := by
          intro hx
          exact hq (of_decide_eq_true hx)
        rw [@List.filter_cons_of_neg _ (fun c : Clause => decide (∀ x ∈ A, x ∉ c)) _ _ e2,
          @List.filter_cons_of_neg _ (fun c : Clause => decide (∀ x ∈ a :: A, x ∉ c)) _ _ e3, ih]

theorem applyAsgmt_eq_applySpec (F : Formula) (A : Asgmt) (h : DecidedOnce A) :
    applyAsgmt F A = applySpec F A := by
  induction A generalizing F with
  | nil => rw [applyAsgmt_nil, applySpec_nil]
  | cons a A ih =>
    obtain ⟨h1, h2⟩ := decidedOnce_cons h
    rw [applyAsgmt_cons, ih _ h1, applySpec_cons F a A h2]

theorem applySpec_congr (F : Formula) (A B : Asgmt) (h : ∀ x, x ∈ A ↔ x ∈ B) :
    applySpec F A = applySpec F B := by
  unfold applySpec
  have h1 : (fun c : Clause => decide (∀ a ∈ A, a ∉ c)) = fun c => decide (∀ a ∈ B, a ∉ c) := by
    funext c
    simp only [h]
  have h2 : (fun l : Lit => decide (-l ∉ A)) = fun l => decide (-l ∉ B) := by
    funext l
    simp only [h]
  rw [h1, h2]

/-! ### Structure of `BCP` -/

theorem bcpLoop_none {W : Formula} (A : Asgmt) (h : firstUnit W = none) :
    bcpLoop W A = (W, A) := by
  rw [bcpLoop]
  split
  · rfl
  · rename_i l hl
    rw [h] at hl
    cases hl

theorem bcpLoop_some {W : Formula} (A : Asgmt) {l : Lit} (h : firstUnit W = some l) :
    bcpLoop W A = bcpLoop (applyAsgmt W (A ++ [l])) (A ++ [l]) := by
  conv_lhs => rw [bcpLoop]
  split
  · rename_i hl
    rw [h] at hl
    cases hl
  · rename_i l2 hl
    rw [h] at hl
    cases hl
    rfl

theorem bcpLoop_eq_applyAsgmt (F W : Formula) (A : Asgmt) (h : W = applyAsgmt F A) :
    (bcpLoop W A).1 = applyAsgmt F (bcpLoop W A).2 := by
  induction W, A using bcpLoop.induct with
  | case1 W A hn => rw [bcpLoop_none A hn]; exact h
  | case2 W A l hl ih =>
    rw [bcpLoop_some A hl]
    apply ih
    rw [h, applyAsgmt_snoc, applyAsgmt_idem, applyAsgmt_snoc]

theorem BCP_eq_applyAsgmt (F : Formula) (A : Asgmt) :
    (BCP F A).1 = applyAsgmt F (BCP F A).2 :=
  bcpLoop_eq_applyAsgmt F _ A rfl

theorem bcpLoop_no_unit (W : Formula) (A : Asgmt) : ∀ c ∈ (bcpLoop W A).1, c.length ≠ 1 := by
  induction W, A using bcpLoop.induct with
  | case1 W A hn => rw [bcpLoop_none A hn]; exact firstUnit_none hn
  | case2 W A l hl ih => rw [bcpLoop_some A hl]; exact ih

theorem bcpLoop_extends (W : Formula) (A : Asgmt) : A <+: (bcpLoop W A).2 := by
  induction W, A using bcpLoop.induct with
  | case1 W A hn => rw [bcpLoop_none A hn]
  | case2 W A l hl ih =>
    rw [bcpLoop_some A hl]
    exact List.IsPrefix.trans (List.prefix_append A [l]) ih

/-! ### Structure of `haveConflict` -/

theorem haveConflictFrom_iff (U : Clause) (F : Formula) (hz : ∀ c ∈ F, (0 : Lit) ∉ c) :
    haveConflictFrom U F = true ↔
      (∃ c ∈ F, c = []) ∨ (∃ l, [l] ∈ F ∧ -l ∈ U) ∨ (∃ l, [l] ∈ F ∧ [-l] ∈ F) ∨
        (∃ c ∈ F, ∃ l ∈ c, -l ∈ c) := by
  induction F generalizing U with
  | nil => simp [haveConflictFrom]
  | cons c rest ih =>
    have hz2 : ∀ d ∈ rest, (0 : Lit) ∉ d := fun d hd => hz d (List.mem_cons_of_mem _ hd)
    have hc0 : (0 : Lit) ∉ c := hz c (List.mem_cons_self _ _)
    unfold haveConflictFrom
    split
    · simp
    · rename_i l
      have hl0 : l ≠ 0 := by
        rintro rfl
        exact hc0 (List.mem_cons_self _ _)
      have hne : l ≠ -l := by
        intro e
        apply hl0
        have e2 : l + l = 0 := by
          conv_lhs => lhs; rw [e]
          exact neg_add_cancel l
        have : (2 : Int) * l = 0 := by rw [two_mul]; exact e2
        rcases Int.mul_eq_zero.1 this with h | h
        · exact absurd h (by decide)
        · exact h
      by_cases hU : -l ∈ U
      · have : List.count (-l) U ≠ 0 := by
          rw [Ne, List.count_eq_zero]
          exact fun h => h hU
        rw [if_pos this]
        simp only [true_iff]
        exact Or.inr (Or.inl ⟨l, List.mem_cons_self _ _, hU⟩)
      · have : ¬ List.count (-l) U ≠ 0 := by
          rw [Ne, List.count_eq_zero, not_not]
          exact hU
        rw [if_neg this, ih _ hz2]
        constructor
        · rintro (⟨d, hd, rfl⟩ | ⟨m, hm, hmU⟩ | ⟨m, hm, hm2⟩ | ⟨d, hd, m, hm, hm2⟩)
          · exact Or.inl ⟨[], List.mem_cons_of_mem _ hd, rfl⟩
          · rcases List.mem_append.1 hmU with h | h
            · exact Or.inr (Or.inl ⟨m, List.mem_cons_of_mem _ hm, h⟩)
            · have e : -m = l := by simpa using h
              refine Or.inr (Or.inr (Or.inl ⟨m, List.mem_cons_of_mem _ hm, ?_⟩))
              rw [e]
              exact List.mem_cons_self _ _
          · exact Or.inr (Or.inr (Or.inl ⟨m, List.mem_cons_of_mem _ hm, List.mem_cons_of_mem _ hm2⟩))
          · exact Or.inr (Or.inr (Or.inr ⟨d, List.mem_cons_of_mem _ hd, m, hm, hm2⟩))
        · rintro (⟨d, hd, rfl⟩ | ⟨m, hm, hmU⟩ | ⟨m, hm, hm2⟩ | ⟨d, hd, m, hm, hm2⟩)
          · rcases List.mem_cons.1 hd with h | h
            · cases h
            · exact Or.inl ⟨[], h, rfl⟩
          · rcases List.mem_cons.1 hm with h | h
            · have e : m = l := by simpa using h
              subst e
              exact absurd hmU hU
            · exact Or.inr (Or.inl ⟨m, h, List.mem_append_left _ hmU⟩)
          · rcases List.mem_cons.1 hm with h | h
            · have e : m = l := by simpa using h
              subst e
              rcases List.mem_cons.1 hm2 with h2 | h2
              · have e2 : -m = m := by simpa using h2
                exact absurd e2.symm hne
              · refine Or.inr (Or.inl ⟨-m, h2, ?_⟩)
                rw [neg_neg]
                exact List.mem_append_right _ (List.mem_singleton_self _)
            · rcases List.mem_cons.1 hm2 with h2 | h2
              · have e2 : -m = l := by simpa using h2
                refine Or.inr (Or.inl ⟨m, h, ?_⟩)
                rw [e2]
                exact List.mem_append_right _ (List.mem_singleton_self _)
              · exact Or.inr (Or.inr (Or.inl ⟨m, h, h2⟩))
          · rcases List.mem_cons.1 hd with h | h
            · subst h
              have e : m = l := by simpa using hm
              subst e
              have e2 : -m = m := by simpa using hm2
              exact absurd e2.symm hne
            · exact Or.inr (Or.inr (Or.inr ⟨d, h, m, hm, hm2⟩))
    · rename_i hne0 hne1
      by_cases ht : ∃ l ∈ c, -l ∈ c
      · have : c.any (fun lit => decide (-lit ∈ c)) = true := by
          rw [List.any_eq_true]
          obtain ⟨l, hl, hl2⟩ := ht
          exact ⟨l, hl, decide_eq_true hl2⟩
        rw [if_pos this]
        simp only [true_iff]
        exact Or.inr (Or.inr (Or.inr ⟨c, List.mem_cons_self _ _, ht⟩))
      · have : ¬ c.any (fun lit => decide (-lit ∈ c)) = true := by
          rw [List.any_eq_true]
          rintro ⟨l, hl, hl2⟩
          exact ht ⟨l, hl, of_decide_eq_true hl2⟩
        rw [if_neg this, ih _ hz2]
        constructor
        · rintro (⟨d, hd, rfl⟩ | ⟨m, hm, hmU⟩ | ⟨m, hm, hm2⟩ | ⟨d, hd, m, hm, hm2⟩)
          · exact Or.inl ⟨[], List.mem_cons_of_mem _ hd, rfl⟩
          · exact Or.inr (Or.inl ⟨m, List.mem_cons_of_mem _ hm, hmU⟩)
          · exact Or.inr (Or.inr (Or.inl ⟨m, List.mem_cons_of_mem _ hm, List.mem_cons_of_mem _ hm2⟩))
          · exact Or.inr (Or.inr (Or.inr ⟨d, List.mem_cons_of_mem _ hd, m, hm, hm2⟩))
        · rintro (⟨d, hd, rfl⟩ | ⟨m, hm, hmU⟩ | ⟨m, hm, hm2⟩ | ⟨d, hd, m, hm, hm2⟩)
          · rcases List.mem_cons.1 hd with h | h
            · exact absurd h.symm hne0
            · exact Or.inl ⟨[], h, rfl⟩
          · rcases List.mem_cons.1 hm with h | h
            · exact absurd h.symm (hne1 m)
            · exact Or.inr (Or.inl ⟨m, h, hmU⟩)
          · rcases List.mem_cons.1 hm with h | h
            · exact absurd h.symm (hne1 m)
            · rcases List.mem_cons.1 hm2 with h2 | h2
              · exact absurd h2.symm (hne1 (-m))
              · exact Or.inr (Or.inr (Or.inl ⟨m, h, h2⟩))
          · rcases List.mem_cons.1 hd with h | h
            · subst h
              exact absurd ⟨m, hm, hm2⟩ ht
            · exact Or.inr (Or.inr (Or.inr ⟨d, h, m, hm, hm2⟩))

/-! ### Unfolding `solve` -/

theorem solve_sat {F : Formula} {A : Asgmt} (st : Asgmt) (h : (BCP F A).1.length = 0) :
    solve F A st = some (true, (BCP F A).2) := by
  rw [solve, if_pos h]

theorem solve_conflict {F : Formula} {A : Asgmt} (st : Asgmt) (h1 : ¬ (BCP F A).1.length = 0)
    (h2 : haveConflict (BCP F A).1 = true) : solve F A st = some (false, st) := by
  rw [solve, if_neg h1, if_pos h2]

theorem solve_branch {F : Formula} {A : Asgmt} (st : Asgmt) {v : Var}
    (h1 : ¬ (BCP F A).1.length = 0) (h2 : ¬ haveConflict (BCP F A).1 = true)
    (h3 : chooseVar (BCP F A).1 = some v) :
    solve F A st =
      match solve (BCP F A).1 ((BCP F A).2 ++ [getLit v true]) st with
      | none => none
      | some (true, s) => some (true, s)
      | some (false, s) => solve (BCP F A).1 ((BCP F A).2 ++ [getLit v false]) s := by
  conv_lhs => rw [solve]
  rw [if_neg h1, if_neg h2]
  split
  · rename_i hn
    rw [h3] at hn
    cases hn
  · rename_i v2 hv2
    rw [h3] at hv2
    cases hv2
    rfl

theorem haveConflictFrom_nil_cons (U : Clause) (rest : Formula) :
    haveConflictFrom U ([] :: rest) = true := by
  simp [haveConflictFrom]

theorem chooseVar_defined {R : Formula} (h1 : ¬ R.length = 0) (h2 : ¬ haveConflict R = true) :
    ∃ l c rest, R = (l :: c) :: rest := by
  match R, h1, h2 with
  | [], h1, _ => exact absurd rfl h1
  | [] :: rest, _, h2 => exact absurd (haveConflictFrom_nil_cons [] rest) h2
  | (l :: c) :: rest, _, _ => exact ⟨l, c, rest, rfl⟩

theorem chooseVar_ne_none {R : Formula} (h1 : ¬ R.length = 0) (h2 : ¬ haveConflict R = true) :
    chooseVar R ≠ none := by
  obtain ⟨l, c, rest, rfl⟩ := chooseVar_defined h1 h2
  simp [chooseVar]

theorem solve_total (F : Formula) (A st : Asgmt) : ∃ b S, solve F A st = some (b, S) := by
  induction F, A, st using solve.induct with
  | case1 F A st h => exact ⟨true, _, solve_sat st h⟩
  | case2 F A st h1 h2 => exact ⟨false, _, solve_conflict st h1 h2⟩
  | case3 F A st h1 h2 h3 => exact absurd h3 (chooseVar_ne_none h1 h2)
  | case4 F A st h1 h2 v h3 h4 ih =>
    obtain ⟨b, S, hS⟩ := ih
    rw [h4] at hS
    cases hS
  | case5 F A st h1 h2 v h3 s h4 _ =>
    refine ⟨true, s, ?_⟩
    rw [solve_branch st h1 h2 h3, h4]
  | case6 F A st h1 h2 v h3 s h4 _ ih2 =>
    obtain ⟨b, S, hS⟩ := ih2
    refine ⟨b, S, ?_⟩
    rw [solve_branch st h1 h2 h3, h4]
    exact hS

/-! ### Simplification preserves truth -/

theorem litTrue_ne_zero {val : Var → Bool} {l : Lit} (h : litTrue val l = true) : l ≠ 0 := by
  rintro rfl
  simp [litTrue] at h

theorem litTrue_neg {val : Var → Bool} {l : Int} (h : litTrue val l = true) :
    litTrue val (-l) = false := by
  unfold litTrue at h ⊢
  by_cases h1 : (0 : Int) < l
  · have h2 : ¬ (0 < -l) := by omega
    have h3 : -l < 0 := by omega
    rw [if_pos h1] at h
    rw [if_neg h2, if_pos h3, neg_neg, h]
    rfl
  · rw [if_neg h1] at h
    by_cases h4 : l < (0 : Int)
    · have h5 : 0 < -l := by omega
      rw [if_pos h4] at h
      rw [if_pos h5]
      simpa using h
    · rw [if_neg h4] at h
      cases h

theorem mem_applyLit_of_mem {a : Lit} {F : Formula} {c : Clause} (hc : c ∈ F) (ha : a ∉ c) :
    c.filter (fun l => decide (l ≠ -a)) ∈ applyLit a F := by
  rw [applyLit_eq, List.mem_map]
  exact ⟨c, List.mem_filter.2 ⟨hc, decide_eq_true ha⟩, rfl⟩

theorem satisfies_applyLit {val : Var → Bool} {a : Lit} (ha : litTrue val a = true)
    (F : Formula) : Satisfies val (applyLit a F) ↔ Satisfies val F := by
  constructor
  · intro h c hc
    by_cases hac : a ∈ c
    · exact ⟨a, hac, ha⟩
    · obtain ⟨l, hl, hlt⟩ := h _ (mem_applyLit_of_mem hc hac)
      exact ⟨l, List.mem_of_mem_filter hl, hlt⟩
  · intro h d hd
    obtain ⟨c, hc, _, rfl⟩ := mem_applyLit hd
    obtain ⟨l, hl, hlt⟩ := h c hc
    refine ⟨l, List.mem_filter.2 ⟨hl, ?_⟩, hlt⟩
    apply decide_eq_true
    rintro rfl
    rw [litTrue_neg ha] at hlt
    cases hlt

theorem satisfies_applyAsgmt {val : Var → Bool} (A : Asgmt)
    (hA : ∀ a ∈ A, litTrue val a = true) (F : Formula) :
    Satisfies val (applyAsgmt F A) ↔ Satisfies val F := by
  induction A generalizing F with
  | nil => rfl
  | cons a A ih =>
    rw [applyAsgmt_cons, ih (fun b hb => hA b (List.mem_cons_of_mem _ hb)),
      satisfies_applyLit (hA a (List.mem_cons_self _ _))]

theorem satisfies_bcpLoop {val : Var → Bool} (W : Formula) (A : Asgmt)
    (hA : ∀ a ∈ A, litTrue val a = true) (hW : Satisfies val W) :
    (∀ a ∈ (bcpLoop W A).2, litTrue val a = true) ∧ Satisfies val (bcpLoop W A).1 := by
  induction W, A using bcpLoop.induct with
  | case1 W A hn => rw [bcpLoop_none A hn]; exact ⟨hA, hW⟩
  | case2 W A l hl ih =>
    rw [bcpLoop_some A hl]
    have hl2 : litTrue val l = true := by
      obtain ⟨m, hm, hmt⟩ := hW _ (firstUnit_mem hl)
      rw [List.mem_singleton] at hm
      rw [← hm]
      exact hmt
    have hA2 : ∀ a ∈ A ++ [l], litTrue val a = true := by
      intro a ha
      rcases List.mem_append.1 ha with h | h
      · exact hA a h
      · rw [List.mem_singleton] at h
        rw [h]
        exact hl2
    exact ih hA2 ((satisfies_applyAsgmt _ hA2 W).2 hW)

theorem satisfies_BCP {val : Var → Bool} (F : Formula) (A : Asgmt)
    (hA : ∀ a ∈ A, litTrue val a = true) (hF : Satisfies val F) :
    (∀ a ∈ (BCP F A).2, litTrue val a = true) ∧ Satisfies val (BCP F A).1 :=
  satisfies_bcpLoop _ A hA ((satisfies_applyAsgmt A hA F).2 hF)

theorem BCP_extends (F : Formula) (A : Asgmt) : A <+: (BCP F A).2 :=
  bcpLoop_extends _ A

/-- A `SAT` answer records an assignment that extends the starting one, and
every valuation making the recorded literals true satisfies the formula. -/
theorem solve_sat_models (F : Formula) (A st : Asgmt) :
    ∀ S, solve F A st = some (true, S) →
      A ⊆ S ∧ ∀ val : Var → Bool, (∀ a ∈ S, litTrue val a = true) → Satisfies val F := by
  induction F, A, st using solve.induct with
  | case1 F A st h =>
    intro S hS
    rw [solve_sat st h] at hS
    cases hS
    refine ⟨(BCP_extends F A).subset, fun val hval => ?_⟩
    rw [← satisfies_applyAsgmt _ hval F, ← BCP_eq_applyAsgmt, List.length_eq_zero.1 h]
    intro c hc
    cases hc
  | case2 F A st h1 h2 =>
    intro S hS
    rw [solve_conflict st h1 h2] at hS
    cases hS
  | case3 F A st h1 h2 h3 => exact absurd h3 (chooseVar_ne_none h1 h2)
  | case4 F A st h1 h2 v h3 h4 _ =>
    intro S hS
    rw [solve_branch st h1 h2 h3, h4] at hS
    cases hS
  | case5 F A st h1 h2 v h3 s h4 ih =>
    intro S hS
    rw [solve_branch st h1 h2 h3, h4] at hS
    cases hS
    obtain ⟨hsub, hmod⟩ := ih s h4
    have hsub2 : (BCP F A).2 ⊆ s := fun x hx => hsub (List.mem_append_left _ hx)
    refine ⟨fun x hx => hsub2 ((BCP_extends F A).subset hx), fun val hval => ?_⟩
    rw [← satisfies_applyAsgmt (BCP F A).2 (fun a ha => hval a (hsub2 ha)) F,
      ← BCP_eq_applyAsgmt]
    exact hmod val hval
  | case6 F A st h1 h2 v h3 s h4 _ ih2 =>
    intro S hS
    rw [solve_branch st h1 h2 h3, h4] at hS
    obtain ⟨hsub, hmod⟩ := ih2 S hS
    have hsub2 : (BCP F A).2 ⊆ S := fun x hx => hsub (List.mem_append_left _ hx)
    refine ⟨fun x hx => hsub2 ((BCP_extends F A).subset hx), fun val hval => ?_⟩
    rw [← satisfies_applyAsgmt (BCP F A).2 (fun a ha => hval a (hsub2 ha)) F,
      ← BCP_eq_applyAsgmt]
    exact hmod val hval

/-! ### The assignment never decides a variable twice -/

theorem mem_applyAsgmt_subset (A : Asgmt) (F : Formula) :
    ∀ d ∈ applyAsgmt F A, ∃ c ∈ F, d ⊆ c := by
  induction A generalizing F with
  | nil => exact fun d hd => ⟨d, hd, List.Subset.refl d⟩
  | cons a A ih =>
    intro d hd
    rw [applyAsgmt_cons] at hd
    obtain ⟨c, hc, hdc⟩ := ih _ d hd
    obtain ⟨e, he, _, rfl⟩ := mem_applyLit hc
    exact ⟨e, he, fun x hx => List.mem_of_mem_filter (hdc hx)⟩

theorem getVar_eq_iff {a b : Int} (h : getVar a = getVar b) : a = b ∨ a = -b := by
  unfold getVar at h
  exact abs_eq_abs.1 h

theorem decidedOnce_snoc {A : Asgmt} {l : Lit} (hA : DecidedOnce A) (h1 : l ∉ A)
    (h2 : -l ∉ A) : DecidedOnce (A ++ [l]) := by
  unfold DecidedOnce at hA ⊢
  rw [List.map_append, List.map_singleton, List.nodup_append]
  refine ⟨hA, List.nodup_singleton _, ?_⟩
  intro x hx hx2
  rw [List.mem_singleton] at hx2
  subst hx2
  obtain ⟨b, hb, hbl⟩ := List.mem_map.1 hx
  rcases getVar_eq_iff hbl with e | e
  · exact h1 (e ▸ hb)
  · exact h2 (e ▸ hb)

theorem decidedOnce_no_neg {A : Asgmt} (hA : DecidedOnce A) (h0 : (0 : Lit) ∉ A)
    {a : Lit} (ha : a ∈ A) : -a ∉ A := by
  intro hn
  have e : -a = a := by
    apply List.inj_on_of_nodup_map hA hn ha
    simp [getVar]
  have : a = 0 := by
    have e2 : a + a = 0 := by
      conv_lhs => lhs; rw [← e]
      exact neg_add_cancel a
    have e3 : (2 : Int) * a = 0 := by rw [two_mul]; exact e2
    rcases Int.mul_eq_zero.1 e3 with h | h
    · exact absurd h (by decide)
    · exact h
  exact h0 (this ▸ ha)

theorem bcpLoop_decidedOnce (W : Formula) (A : Asgmt) (hz : ∀ c ∈ W, (0 : Lit) ∉ c)
    (hW : ∀ d ∈ W, ∀ a ∈ A, a ∉ d ∧ -a ∉ d) (hA : DecidedOnce A) (h0 : (0 : Lit) ∉ A) :
    DecidedOnce (bcpLoop W A).2 ∧ (0 : Lit) ∉ (bcpLoop W A).2 := by
  induction W, A using bcpLoop.induct with
  | case1 W A hn => rw [bcpLoop_none A hn]; exact ⟨hA, h0⟩
  | case2 W A l hl ih =>
    rw [bcpLoop_some A hl]
    have hm := firstUnit_mem hl
    have hl0 : l ≠ 0 := by
      rintro rfl
      exact hz _ hm (List.mem_singleton_self _)
    have hl1 : l ∉ A := fun h => (hW _ hm l h).1 (List.mem_singleton_self _)
    have hl2 : -l ∉ A := by
      intro h
      have := (hW _ hm (-l) h).2
      rw [neg_neg] at this
      exact this (List.mem_singleton_self _)
    apply ih
    · exact applyAsgmt_keeps_absent _ 0 W hz
    · exact applyAsgmt_absent W _
    · exact decidedOnce_snoc hA hl1 hl2
    · intro h
      rcases List.mem_append.1 h with h | h
      · exact h0 h
      · exact hl0 (List.mem_singleton.1 h).symm

theorem BCP_decidedOnce (F : Formula) (A : Asgmt) (hz : ∀ c ∈ F, (0 : Lit) ∉ c)
    (hA : DecidedOnce A) (h0 : (0 : Lit) ∉ A) :
    DecidedOnce (BCP F A).2 ∧ (0 : Lit) ∉ (BCP F A).2 :=
  bcpLoop_decidedOnce _ A (applyAsgmt_keeps_absent A 0 F hz) (applyAsgmt_absent F A) hA h0

theorem BCP_zero_free (F : Formula) (A : Asgmt) (hz : ∀ c ∈ F, (0 : Lit) ∉ c) :
    ∀ c ∈ (BCP F A).1, (0 : Lit) ∉ c := by
  rw [BCP_eq_applyAsgmt]
  exact applyAsgmt_keeps_absent _ 0 F hz

/-- The literal pushed for either polarity of the chosen variable is nonzero and
its variable is undecided in the assignment left by `BCP`. -/
theorem branch_decidedOnce (F : Formula) (A : Asgmt) (hz : ∀ c ∈ F, (0 : Lit) ∉ c)
    (hA : DecidedOnce A) (h0 : (0 : Lit) ∉ A) {v : Var}
    (hv : chooseVar (BCP F A).1 = some v) (value : Bool) :
    DecidedOnce ((BCP F A).2 ++ [getLit v value]) ∧
      (0 : Lit) ∉ (BCP F A).2 ++ [getLit v value] := by
  obtain ⟨hA2, h02⟩ := BCP_decidedOnce F A hz hA h0
  obtain ⟨l, c, rest, hR, hvl⟩ := chooseVar_some hv
  have hmem : (l :: c) ∈ (BCP F A).1 := by rw [hR]; exact List.mem_cons_self _ _
  have hl0 : l ≠ 0 := by
    rintro rfl
    exact BCP_zero_free F A hz _ hmem (List.mem_cons_self _ _)
  have habs : ∀ a ∈ (BCP F A).2, a ∉ (l :: c) ∧ -a ∉ (l :: c) := by
    intro a ha
    have := applyAsgmt_absent F (BCP F A).2
    rw [← BCP_eq_applyAsgmt] at this
    exact this _ hmem a ha
  have hl1 : l ∉ (BCP F A).2 := fun h => (habs l h).1 (List.mem_cons_self _ _)
  have hl2 : -l ∉ (BCP F A).2 := by
    intro h
    have := (habs (-l) h).2
    rw [neg_neg] at this
    exact this (List.mem_cons_self _ _)
  have hcase : getLit v value = l ∨ getLit v value = -l := by
    have hl : v = l ∨ v = -l := by
      rw [hvl]
      exact abs_choice l
    cases value <;> rcases hl with e | e <;> simp [getLit, e]
  have hg0 : getLit v value ≠ 0 := by
    rcases hcase with e | e <;> rw [e]
    · exact hl0
    · exact neg_ne_zero.2 hl0
  have hg1 : getLit v value ∉ (BCP F A).2 := by
    rcases hcase with e | e <;> rw [e]
    · exact hl1
    · exact hl2
  have hg2 : -getLit v value ∉ (BCP F A).2 := by
    rcases hcase with e | e <;> rw [e]
    · exact hl2
    · rw [neg_neg]; exact hl1
  refine ⟨decidedOnce_snoc hA2 hg1 hg2, ?_⟩
  intro h
  rcases List.mem_append.1 h with h | h
  · exact h02 h
  · exact hg0 (List.mem_singleton.1 h).symm

theorem solve_sat_decidedOnce (F : Formula) (A st : Asgmt) :
    (∀ c ∈ F, (0 : Lit) ∉ c) → DecidedOnce A → (0 : Lit) ∉ A →
      ∀ S, solve F A st = some (true, S) → DecidedOnce S ∧ (0 : Lit) ∉ S := by
  induction F, A, st using solve.induct with
  | case1 F A st h =>
    intro hz hA h0 S hS
    rw [solve_sat st h] at hS
    cases hS
    exact BCP_decidedOnce F A hz hA h0
  | case2 F A st h1 h2 =>
    intro _ _ _ S hS
    rw [solve_conflict st h1 h2] at hS
    cases hS
  | case3 F A st h1 h2 h3 => exact absurd h3 (chooseVar_ne_none h1 h2)
  | case4 F A st h1 h2 v h3 h4 _ =>
    intro _ _ _ S hS
    rw [solve_branch st h1 h2 h3, h4] at hS
    cases hS
  | case5 F A st h1 h2 v h3 s h4 ih =>
    intro hz hA h0 S hS
    rw [solve_branch st h1 h2 h3, h4] at hS
    cases hS
    obtain ⟨hd, hd0⟩ := branch_decidedOnce F A hz hA h0 h3 true
    exact ih (BCP_zero_free F A hz) hd hd0 s h4
  | case6 F A st h1 h2 v h3 s h4 _ ih2 =>
    intro hz hA h0 S hS
    rw [solve_branch st h1 h2 h3, h4] at hS
    obtain ⟨hd, hd0⟩ := branch_decidedOnce F A hz hA h0 h3 false
    exact ih2 (BCP_zero_free F A hz) hd hd0 S hS

/-! ### An `UNSAT` answer on a tautology-free formula -/

theorem noTautology_zero_free {F : Formula} (h : NoTautology F) : ∀ c ∈ F, (0 : Lit) ∉ c := by
  intro c hc h0
  have := h c hc 0 h0
  rw [neg_zero] at this
  exact this h0

theorem noTautology_BCP {F : Formula} (A : Asgmt) (h : NoTautology F) :
    NoTautology (BCP F A).1 := by
  intro d hd l hl hnl
  rw [BCP_eq_applyAsgmt] at hd
  obtain ⟨c, hc, hdc⟩ := mem_applyAsgmt_subset _ F d hd
  exact h c hc l (hdc hl) (hdc hnl)

theorem conflict_unsatisfiable {R : Formula} (hnt : NoTautology R)
    (hc : haveConflict R = true) (val : Var → Bool) : ¬ Satisfies val R := by
  intro hsat
  unfold haveConflict at hc
  rw [haveConflictFrom_iff [] R (noTautology_zero_free hnt)] at hc
  rcases hc with ⟨c, hc, rfl⟩ | ⟨l, _, hl⟩ | ⟨l, h1, h2⟩ | ⟨c, hc, l, hl, hl2⟩
  · obtain ⟨l, hl, _⟩ := hsat _ hc
    cases hl
  · cases hl
  · obtain ⟨m, hm, hmt⟩ := hsat _ h1
    obtain ⟨n, hn, hnt2⟩ := hsat _ h2
    rw [List.mem_singleton] at hm hn
    subst hm
    subst hn
    rw [litTrue_neg hmt] at hnt2
    cases hnt2
  · exact hnt c hc l hl hl2

theorem litTrue_getLit (val : Var → Bool) {R : Formula} {v : Int}
    (hz : ∀ c ∈ R, (0 : Lit) ∉ c) (hv : chooseVar R = some v) :
    litTrue val (getLit v (val v)) = true := by
  obtain ⟨l, c, rest, rfl, hvl⟩ := chooseVar_some hv
  have hl0 : l ≠ 0 := by
    rintro rfl
    exact hz _ (List.mem_cons_self _ _) (List.mem_cons_self _ _)
  have hpos : (0 : Int) < v := by
    rw [hvl]
    exact abs_pos.2 hl0
  have hn1 : ¬ ((0 : Int) < -v) := by omega
  have hn2 : -v < (0 : Int) := by omega
  cases hval : val v
  · simp [getLit, litTrue, hn1, hn2, hval]
  · simp [getLit, litTrue, hpos, hval]

/-- An `UNSAT` answer on a tautology-free formula: no valuation that makes the
starting assignment true satisfies the formula. -/
theorem solve_unsat_no_model (F : Formula) (A st : Asgmt) :
    NoTautology F → ∀ S, solve F A st = some (false, S) →
      ∀ val : Var → Bool, (∀ a ∈ A, litTrue val a = true) → ¬ Satisfies val F := by
  induction F, A, st using solve.induct with
  | case1 F A st h =>
    intro _ S hS
    rw [solve_sat st h] at hS
    cases hS
  | case2 F A st h1 h2 =>
    intro hnt S _ val hA hF
    exact conflict_unsatisfiable (noTautology_BCP A hnt) h2 val (satisfies_BCP F A hA hF).2
  | case3 F A st h1 h2 h3 => exact absurd h3 (chooseVar_ne_none h1 h2)
  | case4 F A st h1 h2 v h3 h4 _ =>
    intro _ S hS
    rw [solve_branch st h1 h2 h3, h4] at hS
    cases hS
  | case5 F A st h1 h2 v h3 s h4 _ =>
    intro _ S hS
    rw [solve_branch st h1 h2 h3, h4] at hS
    cases hS
  | case6 F A st h1 h2 v h3 s h4 ih1 ih2 =>
    intro hnt S hS val hA hF
    rw [solve_branch st h1 h2 h3, h4] at hS
    obtain ⟨hA2, hR⟩ := satisfies_BCP F A hA hF
    have hntR := noTautology_BCP A hnt
    have hlit := litTrue_getLit val (noTautology_zero_free hntR) h3
    have hext : ∀ a ∈ (BCP F A).2 ++ [getLit v (val v)], litTrue val a = true := by
      intro a ha
      rcases List.mem_append.1 ha with h | h
      · exact hA2 a h
      · rw [List.mem_singleton] at h
        rw [h]
        exact hlit
    cases hval : val v
    · rw [hval] at hext
      exact ih2 hntR S hS val hext hR
    · rw [hval] at hext
      exact ih1 hntR s h4 val hext hR

/-! ### The rendered valuation -/

theorem mem_printAsgmt_pos {numVar v : Int} (S : Asgmt) (h1 : 1 ≤ v) (h2 : v ≤ numVar) :
    v ∈ printAsgmt numVar S ↔ -v ∉ S := by
  unfold printAsgmt
  rw [List.mem_map]
  constructor
  · rintro ⟨i, _, he⟩
    by_cases hm : -((i : Int) + 1) ∈ S
    · rw [if_pos hm] at he
      omega
    · rw [if_neg hm] at he
      rw [← he]
      exact hm
  · intro hn
    refine ⟨(v - 1).toNat, ?_, ?_⟩
    · rw [List.mem_range]
      omega
    · have e : (((v - 1).toNat : Nat) : Int) + 1 = v := by omega
      rw [e, if_neg hn]

theorem litTrue_rendered {numVar : Int} (S : Asgmt) {l : Int} (h0 : l ≠ 0)
    (hb : |l| ≤ numVar) :
    litTrue (renderedVal numVar S) l = litTrue (fun v => decide (-v ∉ S)) l := by
  unfold litTrue renderedVal
  have hb2 := abs_le.1 hb
  by_cases h1 : (0 : Int) < l
  · rw [if_pos h1, if_pos h1]
    have := mem_printAsgmt_pos S (show (1 : Int) ≤ l by omega) hb2.2
    simp only [this]
  · have h2 : l < (0 : Int) := by omega
    rw [if_neg h1, if_neg h1, if_pos h2, if_pos h2]
    have := mem_printAsgmt_pos S (show (1 : Int) ≤ -l by omega) (show -l ≤ numVar by omega)
    simp only [this]

theorem litTrue_recorded {S : Asgmt} (hS : DecidedOnce S) (h0 : (0 : Lit) ∉ S) {a : Int}
    (ha : a ∈ S) : litTrue (fun v => decide (-v ∉ S)) a = true := by
  have hn := decidedOnce_no_neg hS h0 ha
  have ha0 : a ≠ 0 := fun e => h0 (e ▸ ha)
  unfold litTrue
  by_cases h1 : (0 : Int) < a
  · rw [if_pos h1]
    exact decide_eq_true hn
  · have h2 : a < (0 : Int) := by omega
    rw [if_neg h1, if_pos h2]
    simp [ha]

theorem wellFormed_zero_free {numVar : Int} {F : Formula} (h : WellFormed numVar F) :
    ∀ c ∈ F, (0 : Lit) ∉ c :=
  fun c hc h0 => (h c hc 0 h0).1 rfl

theorem solve_sat_rendered {numVar : Int} {F : Formula} {st S : Asgmt}
    (hwf : WellFormed numVar F) (hsat : solve F [] st = some (true, S)) :
    Satisfies (renderedVal numVar S) F := by
  obtain ⟨hS, h0⟩ := solve_sat_decidedOnce F [] st (wellFormed_zero_free hwf)
    (by simp [DecidedOnce]) (by simp) S hsat
  obtain ⟨_, hmod⟩ := solve_sat_models F [] st S hsat
  intro c hc
  obtain ⟨l, hl, hlt⟩ := hmod _ (fun a ha => litTrue_recorded hS h0 ha) c hc
  refine ⟨l, hl, ?_⟩
  rw [litTrue_rendered S (hwf c hc l hl).1 (hwf c hc l hl).2]
  exact hlt

theorem bcpSpec_none {F : Formula} {A : Asgmt} (h : firstUnit (applyAsgmt F A) = none) :
    bcpSpec F A = (applyAsgmt F A, A) := by
  rw [bcpSpec]
  split
  · rfl
  · rename_i l hl
    rw [h] at hl
    cases hl

theorem bcpSpec_some {F : Formula} {A : Asgmt} {l : Lit}
    (h : firstUnit (applyAsgmt F A) = some l) : bcpSpec F A = bcpSpec F (A ++ [l]) := by
  conv_lhs => rw [bcpSpec]
  split
  · rename_i hl
    rw [h] at hl
    cases hl
  · rename_i l2 hl
    rw [h] at hl
    cases hl
    rfl

theorem bcpLoop_eq_bcpSpec (F W : Formula) (A : Asgmt) (h : W = applyAsgmt F A) :
    bcpLoop W A = bcpSpec F A := by
  induction W, A using bcpLoop.induct with
  | case1 W A hn =>
    rw [bcpLoop_none A hn]
    rw [h] at hn
    rw [bcpSpec_none hn, h]
  | case2 W A l hl ih =>
    rw [bcpLoop_some A hl]
    have e : applyAsgmt W (A ++ [l]) = applyAsgmt F (A ++ [l]) := by
      rw [h, applyAsgmt_snoc, applyAsgmt_idem, applyAsgmt_snoc]
    rw [ih e]
    rw [h] at hl
    rw [bcpSpec_some hl]

/-! ### Conflicts after propagation -/

theorem haveConflictFrom_of_tautology (U : Clause) (F : Formula)
    (h : ∃ c ∈ F, 2 ≤ c.length ∧ ∃ l ∈ c, -l ∈ c) : haveConflictFrom U F = true := by
  induction F generalizing U with
  | nil =>
    obtain ⟨c, hc, _⟩ := h
    cases hc
  | cons c rest ih =>
    unfold haveConflictFrom
    split
    · rfl
    · rename_i l
      split
      · rfl
      · apply ih
        obtain ⟨d, hd, hlen, ht⟩ := h
        rcases List.mem_cons.1 hd with e | hd2
        · subst e
          simp at hlen
        · exact ⟨d, hd2, hlen, ht⟩
    · split
      · rfl
      · rename_i hany
        apply ih
        obtain ⟨d, hd, hlen, m, hm, hm2⟩ := h
        rcases List.mem_cons.1 hd with e | hd2
        · subst e
          exfalso
          apply hany
          rw [List.any_eq_true]
          exact ⟨m, hm, decide_eq_true hm2⟩
        · exact ⟨d, hd2, hlen, m, hm, hm2⟩

theorem haveConflict_BCP_of_tautology (F : Formula) (A : Asgmt)
    (h : ∃ c ∈ (BCP F A).1, ∃ l ∈ c, -l ∈ c) : haveConflict (BCP F A).1 = true := by
  obtain ⟨c, hc, l, hl, hl2⟩ := h
  apply haveConflictFrom_of_tautology
  refine ⟨c, hc, ?_, l, hl, hl2⟩
  have h1 : c.length ≠ 1 := bcpLoop_no_unit _ A c hc
  have h0 : 0 < c.length := List.length_pos_of_mem hl
  omega

theorem firstUnit_eq_none {F : Formula} (h : ∀ c ∈ F, c.length ≠ 1) : firstUnit F = none := by
  induction F with
  | nil => rfl
  | cons c rest ih =>
    unfold firstUnit
    split
    · exact absurd rfl (h _ (List.mem_cons_self _ _))
    · exact ih (fun d hd => h d (List.mem_cons_of_mem _ hd))

theorem BCP_of_no_unit {F : Formula} (h : ∀ c ∈ F, c.length ≠ 1) : BCP F [] = (F, []) :=
  bcpLoop_none [] (firstUnit_eq_none h)

theorem solve_of_tautology (F : Formula) (A st : Asgmt)
    (h : ∃ c ∈ (BCP F A).1, ∃ l ∈ c, -l ∈ c) : solve F A st = some (false, st) := by
  apply solve_conflict st
  · obtain ⟨c, hc, _⟩ := h
    intro h0
    rw [List.length_eq_zero.1 h0] at hc
    cases hc
  · exact haveConflict_BCP_of_tautology F A h

/-- An `UNSAT` answer leaves the stored assignment as it was. -/
theorem solve_unsat_state (F : Formula) (A st : Asgmt) :
    ∀ S, solve F A st = some (false, S) → S = st := by
  induction F, A, st using solve.induct with
  | case1 F A st h =>
    intro S hS
    rw [solve_sat st h] at hS
    cases hS
  | case2 F A st h1 h2 =>
    intro S hS
    rw [solve_conflict st h1 h2] at hS
    cases hS
    rfl
  | case3 F A st h1 h2 h3 => exact absurd h3 (chooseVar_ne_none h1 h2)
  | case4 F A st h1 h2 v h3 h4 _ =>
    intro S hS
    rw [solve_branch st h1 h2 h3, h4] at hS
    cases hS
  | case5 F A st h1 h2 v h3 s h4 _ =>
    intro S hS
    rw [solve_branch st h1 h2 h3, h4] at hS
    cases hS
  | case6 F A st h1 h2 v h3 s h4 ih1 ih2 =>
    intro S hS
    rw [solve_branch st h1 h2 h3, h4] at hS
    rw [ih2 S hS, ih1 s h4]

theorem solve_opposite_unit_clauses {numVar : Int} {F : Formula} (st : Asgmt) {v : Lit}
    (hwf : WellFormed numVar F) (h1 : [v] ∈ F) (h2 : [-v] ∈ F) :
    solve F [] st = some (false, st) := by
  obtain ⟨b, S, hS⟩ := solve_total F [] st
  cases b
  · rw [hS, solve_unsat_state F [] st S hS]
  · exfalso
    have hsat := solve_sat_rendered hwf hS
    obtain ⟨m, hm, hmt⟩ := hsat _ h1
    obtain ⟨n, hn, hnt⟩ := hsat _ h2
    rw [List.mem_singleton] at hm hn
    subst hm
    subst hn
    rw [litTrue_neg hmt] at hnt
    cases hnt

theorem wellFormed_BCP {numVar : Int} {F : Formula} (A : Asgmt) (h : WellFormed numVar F) :
    WellFormed numVar (BCP F A).1 := by
  intro d hd l hl
  rw [BCP_eq_applyAsgmt] at hd
  obtain ⟨c, hc, hdc⟩ := mem_applyAsgmt_subset _ F d hd
  exact h c hc l (hdc hl)

theorem haveConflict_BCP_iff (F : Formula) (A : Asgmt) (hz : ∀ c ∈ F, (0 : Lit) ∉ c) :
    haveConflict (BCP F A).1 = true ↔
      (∃ c ∈ (BCP F A).1, c = []) ∨ (∃ c ∈ (BCP F A).1, ∃ l ∈ c, -l ∈ c) := by
  unfold haveConflict
  rw [haveConflictFrom_iff [] _ (BCP_zero_free F A hz)]
  constructor
  · rintro (h | ⟨l, _, hl⟩ | ⟨l, hl, _⟩ | h)
    · exact Or.inl h
    · cases hl
    · exact absurd rfl (bcpLoop_no_unit _ A _ hl)
    · exact Or.inr h
  · rintro (h | h)
    · exact Or.inl h
    · exact Or.inr (Or.inr (Or.inr h))

/-! ### The calls of `solve` and the scans of `BCP` -/

theorem neverTwice_of {A : Asgmt} (hA : DecidedOnce A) (h0 : (0 : Lit) ∉ A) : NeverTwice A :=
  ⟨hA, List.Nodup.of_map _ hA, fun _ ha => decidedOnce_no_neg hA h0 ha⟩

theorem call_inv {F0 F : Formula} {st0 A st : Asgmt} (hc : Call F0 st0 F A st)
    (hz : ∀ c ∈ F0, (0 : Lit) ∉ c) :
    (∀ c ∈ F, (0 : Lit) ∉ c) ∧ DecidedOnce A ∧ (0 : Lit) ∉ A := by
  induction hc with
  | root => exact ⟨hz, by simp [DecidedOnce], by simp⟩
  | first _ _ _ hv ih =>
    obtain ⟨h1, h2, h3⟩ := ih
    exact ⟨BCP_zero_free _ _ h1, branch_decidedOnce _ _ h1 h2 h3 hv true⟩
  | second _ _ _ hv _ ih =>
    obtain ⟨h1, h2, h3⟩ := ih
    exact ⟨BCP_zero_free _ _ h1, branch_decidedOnce _ _ h1 h2 h3 hv false⟩

theorem unit_undecided {W : Formula} {B : Asgmt} {l : Lit}
    (hW : ∀ d ∈ W, ∀ a ∈ B, a ∉ d ∧ -a ∉ d) (hm : [l] ∈ W) : l ∉ B ∧ -l ∉ B := by
  constructor
  · exact fun h => (hW _ hm l h).1 (List.mem_singleton_self _)
  · intro h
    have := (hW _ hm (-l) h).2
    rw [neg_neg] at this
    exact this (List.mem_singleton_self _)

theorem bcpState_absent {F W : Formula} {A B : Asgmt} (hs : BcpState F A W B) :
    ∀ d ∈ W, ∀ a ∈ B, a ∉ d ∧ -a ∉ d := by
  cases hs with
  | init => exact applyAsgmt_absent F A
  | restart _ _ => exact applyAsgmt_absent _ _

theorem bcpState_inv {F W : Formula} {A B : Asgmt} (hs : BcpState F A W B)
    (hz : ∀ c ∈ F, (0 : Lit) ∉ c) (hA : DecidedOnce A) (h0 : (0 : Lit) ∉ A) :
    (∀ c ∈ W, (0 : Lit) ∉ c) ∧ DecidedOnce B ∧ (0 : Lit) ∉ B := by
  induction hs with
  | init => exact ⟨applyAsgmt_keeps_absent A 0 F hz, hA, h0⟩
  | restart hprev hl ih =>
    obtain ⟨h1, h2, h3⟩ := ih
    have hm := firstUnit_mem hl
    obtain ⟨hl1, hl2⟩ := unit_undecided (bcpState_absent hprev) hm
    refine ⟨applyAsgmt_keeps_absent _ 0 _ h1, decidedOnce_snoc h2 hl1 hl2, ?_⟩
    intro h
    rcases List.mem_append.1 h with h | h
    · exact h3 h
    · rw [List.mem_singleton] at h
      rw [h] at h1
      exact h1 _ hm (List.mem_singleton_self _)

theorem bcpState_bcpLoop {F : Formula} {A : Asgmt} (W : Formula) (B : Asgmt)
    (hs : BcpState F A W B) : BcpState F A (bcpLoop W B).1 (bcpLoop W B).2 := by
  induction W, B using bcpLoop.induct with
  | case1 W B hn => rw [bcpLoop_none B hn]; exact hs
  | case2 W B l hl ih => rw [bcpLoop_some B hl]; exact ih (BcpState.restart hs hl)

theorem length_applyLit_lt {l : Lit} {W : Formula} (h : ∃ c ∈ W, l ∈ c) :
    (applyLit l W).length < W.length := by
  rw [applyLit_eq, List.length_map, List.length_filter_lt_length_iff_exists]
  obtain ⟨c, hc, hl⟩ := h
  exact ⟨c, hc, by simpa using hl⟩

theorem restart_eq_applyLit {W : Formula} {B : Asgmt} (l : Lit)
    (hW : ∀ d ∈ W, ∀ a ∈ B, a ∉ d ∧ -a ∉ d) : applyAsgmt W (B ++ [l]) = applyLit l W := by
  rw [applyAsgmt_snoc, applyAsgmt_of_absent W B hW]

theorem bcpLoop_length_bound (W : Formula) (B : Asgmt)
    (hW : ∀ d ∈ W, ∀ a ∈ B, a ∉ d ∧ -a ∉ d) :
    (bcpLoop W B).2.length + (bcpLoop W B).1.length ≤ B.length + W.length := by
  induction W, B using bcpLoop.induct with
  | case1 W B hn => rw [bcpLoop_none B hn]
  | case2 W B l hl ih =>
    rw [bcpLoop_some B hl]
    have h1 := ih (applyAsgmt_absent _ _)
    have h2 : (applyAsgmt W (B ++ [l])).length < W.length := by
      rw [restart_eq_applyLit l hW]
      exact length_applyLit_lt ⟨[l], firstUnit_mem hl, List.mem_singleton_self _⟩
    rw [List.length_append, List.length_singleton] at h1
    omega

/-! ### The depth of the recursion -/

theorem mem_varsOf {F : Formula} {n : Nat} :
    n ∈ varsOf F ↔ ∃ c ∈ F, ∃ l ∈ c, l.natAbs = n := by
  unfold varsOf
  rw [List.mem_toFinset, List.mem_map]
  constructor
  · rintro ⟨l, hl, rfl⟩
    obtain ⟨c, hc, hlc⟩ := List.mem_flatten.1 hl
    exact ⟨c, hc, l, hlc, rfl⟩
  · rintro ⟨c, hc, l, hl, rfl⟩
    exact ⟨l, List.mem_flatten.2 ⟨c, hc, hl⟩, rfl⟩

theorem varsOf_applyAsgmt_subset (F : Formula) (A : Asgmt) :
    varsOf (applyAsgmt F A) ⊆ varsOf F := by
  intro n hn
  obtain ⟨d, hd, l, hl, rfl⟩ := mem_varsOf.1 hn
  obtain ⟨c, hc, hdc⟩ := mem_applyAsgmt_subset A F d hd
  exact mem_varsOf.2 ⟨c, hc, l, hdc hl, rfl⟩

theorem varsOf_bcpLoop_subset (W : Formula) (A : Asgmt) :
    varsOf (bcpLoop W A).1 ⊆ varsOf W := by
  induction W, A using bcpLoop.induct with
  | case1 W A hn => rw [bcpLoop_none A hn]
  | case2 W A l hl ih =>
    rw [bcpLoop_some A hl]
    exact Finset.Subset.trans ih (varsOf_applyAsgmt_subset _ _)

theorem chosen_var_eliminated {R : Formula} {v : Var} (hv : chooseVar R = some v)
    (B : Asgmt) (value : Bool) :
    v.natAbs ∈ varsOf R ∧ v.natAbs ∉ varsOf (applyAsgmt R (B ++ [getLit v value])) := by
  obtain ⟨l, c, rest, rfl, hvl⟩ := chooseVar_some hv
  constructor
  · refine mem_varsOf.2 ⟨l :: c, List.mem_cons_self _ _, l, List.mem_cons_self _ _, ?_⟩
    rw [hvl, Int.abs_eq_natAbs, Int.natAbs_ofNat]
  · intro hn
    obtain ⟨d, hd, x, hx, hxv⟩ := mem_varsOf.1 hn
    have ha : getLit v value ∈ B ++ [getLit v value] :=
      List.mem_append_right _ (List.mem_singleton_self _)
    obtain ⟨h1, h2⟩ := applyAsgmt_absent _ _ d hd _ ha
    have hg : (getLit v value).natAbs = v.natAbs := by
      cases value <;> simp [getLit]
    rcases Int.natAbs_eq_natAbs_iff.1 (hxv.trans hg.symm) with e | e
    · exact h1 (e ▸ hx)
    · exact h2 (e ▸ hx)

theorem card_varsOf_branch_lt {R : Formula} {v : Var} (hv : chooseVar R = some v)
    (B : Asgmt) (value : Bool) :
    (varsOf (applyAsgmt R (B ++ [getLit v value]))).card < (varsOf R).card := by
  obtain ⟨h1, h2⟩ := chosen_var_eliminated hv B value
  apply Finset.card_lt_card
  rw [Finset.ssubset_iff_of_subset (varsOf_applyAsgmt_subset _ _)]
  exact ⟨_, h1, h2⟩

theorem solveFuel_sat {F : Formula} {A : Asgmt} (n : Nat) (st : Asgmt)
    (h : (BCP F A).1.length = 0) :
    solveFuel (n + 1) F A st = some (some (true, (BCP F A).2)) := by
  rw [solveFuel, if_pos h]

theorem solveFuel_conflict {F : Formula} {A : Asgmt} (n : Nat) (st : Asgmt)
    (h1 : ¬ (BCP F A).1.length = 0) (h2 : haveConflict (BCP F A).1 = true) :
    solveFuel (n + 1) F A st = some (some (false, st)) := by
  rw [solveFuel, if_neg h1, if_pos h2]

theorem solveFuel_branch {F : Formula} {A : Asgmt} (n : Nat) (st : Asgmt) {v : Var}
    (h1 : ¬ (BCP F A).1.length = 0) (h2 : ¬ haveConflict (BCP F A).1 = true)
    (h3 : chooseVar (BCP F A).1 = some v) :
    solveFuel (n + 1) F A st =
      match solveFuel n (BCP F A).1 ((BCP F A).2 ++ [getLit v true]) st with
      | none => none
      | some none => some none
      | some (some (true, s)) => some (some (true, s))
      | some (some (false, s)) =>
        solveFuel n (BCP F A).1 ((BCP F A).2 ++ [getLit v false]) s := by
  rw [solveFuel, if_neg h1, if_neg h2]
  simp only [h3]

/-- Fuel above the number of variables left in the simplified formula is never
used up. -/
theorem solveFuel_eq_solve (F : Formula) (A st : Asgmt) :
    ∀ n, (varsOf (applyAsgmt F A)).card < n → solveFuel n F A st = some (solve F A st) := by
  induction F, A, st using solve.induct with
  | case1 F A st h =>
    intro n hn
    obtain ⟨k, rfl⟩ := Nat.exists_eq_succ_of_ne_zero (Nat.not_eq_zero_of_lt hn)
    rw [solveFuel_sat k st h, solve_sat st h]
  | case2 F A st h1 h2 =>
    intro n hn
    obtain ⟨k, rfl⟩ := Nat.exists_eq_succ_of_ne_zero (Nat.not_eq_zero_of_lt hn)
    rw [solveFuel_conflict k st h1 h2, solve_conflict st h1 h2]
  | case3 F A st h1 h2 h3 => exact absurd h3 (chooseVar_ne_none h1 h2)
  | case4 F A st h1 h2 v h3 h4 _ =>
    obtain ⟨b, S, hS⟩ := solve_total (BCP F A).1 ((BCP F A).2 ++ [getLit v true]) st
    rw [h4] at hS
    cases hS
  | case5 F A st h1 h2 v h3 s h4 ih =>
    intro n hn
    obtain ⟨k, rfl⟩ := Nat.exists_eq_succ_of_ne_zero (Nat.not_eq_zero_of_lt hn)
    have hle := Finset.card_le_card (varsOf_bcpLoop_subset (applyAsgmt F A) A)
    have hlt := card_varsOf_branch_lt h3 (BCP F A).2 true
    have hk : (varsOf (applyAsgmt (BCP F A).1 ((BCP F A).2 ++ [getLit v true]))).card < k := by
      unfold BCP at hlt ⊢
      omega
    rw [solveFuel_branch k st h1 h2 h3, ih k hk, solve_branch st h1 h2 h3, h4]
  | case6 F A st h1 h2 v h3 s h4 ih1 ih2 =>
    intro n hn
    obtain ⟨k, rfl⟩ := Nat.exists_eq_succ_of_ne_zero (Nat.not_eq_zero_of_lt hn)
    have hle := Finset.card_le_card (varsOf_bcpLoop_subset (applyAsgmt F A) A)
    have hlt1 := card_varsOf_branch_lt h3 (BCP F A).2 true
    have hlt2 := card_varsOf_branch_lt h3 (BCP F A).2 false
    have hk1 : (varsOf (applyAsgmt (BCP F A).1 ((BCP F A).2 ++ [getLit v true]))).card < k := by
      unfold BCP at hlt1 ⊢
      omega
    have hk2 : (varsOf (applyAsgmt (BCP F A).1 ((BCP F A).2 ++ [getLit v false]))).card < k := by
      unfold BCP at hlt2 ⊢
      omega
    rw [solveFuel_branch k st h1 h2 h3, ih1 k hk1, solve_branch st h1 h2 h3, h4]
    exact ih2 k hk2

theorem card_varsOf_le {numVar : Int} {F : Formula} (hwf : WellFormed numVar F) :
    (varsOf F).card ≤ numVar.toNat := by
  have hsub : varsOf F ⊆ Finset.Icc 1 numVar.toNat := by
    intro n hn
    obtain ⟨c, hc, l, hl, rfl⟩ := mem_varsOf.1 hn
    obtain ⟨h0, hb⟩ := hwf c hc l hl
    rw [Int.abs_eq_natAbs] at hb
    rw [Finset.mem_Icc]
    have hb2 : ((Int.natAbs l : Nat) : Int) ≤ numVar := hb
    have h1 : 0 < Int.natAbs l := Int.natAbs_pos.2 h0
    constructor <;> omega
  have := Finset.card_le_card hsub
  rwa [Nat.card_Icc, Nat.add_sub_cancel] at this

/-! ### The constructor -/

theorem parseLoop_nil (numVar numClause : Int) (formula : Formula) (clause : Clause) :
    parseLoop numVar numClause formula clause [] = Except.ok formula := by
  rw [parseLoop]

theorem parseLoop_unread {numVar numClause : Int} (formula : Formula) (clause : Clause)
    {t : Int} (rest : List Int) (hr : ¬ readsAsInt t = true) :
    parseLoop numVar numClause formula clause (t :: rest) = Except.ok formula := by
  rw [parseLoop, if_neg hr]

theorem parseLoop_done {numVar numClause : Int} {formula : Formula} (clause : Clause)
    {t : Int} (rest : List Int) (hr : readsAsInt t = true)
    (h : ¬ (formula.length : Int) < numClause % 2 ^ 64) :
    parseLoop numVar numClause formula clause (t :: rest) = Except.ok formula := by
  rw [parseLoop, if_pos hr, if_neg h]

theorem parseLoop_fatal {numVar numClause : Int} {formula : Formula} (clause : Clause)
    {t : Int} (rest : List Int) (hr : readsAsInt t = true)
    (h : (formula.length : Int) < numClause % 2 ^ 64)
    (ht : t ≠ 0) (hb : t > numVar ∨ t < -numVar) :
    parseLoop numVar numClause formula clause (t :: rest) = Except.error 1 := by
  rw [parseLoop, if_pos hr, if_pos h, if_pos ht, if_pos hb]

theorem parseLoop_literal {numVar numClause : Int} {formula : Formula} (clause : Clause)
    {t : Int} (rest : List Int) (hr : readsAsInt t = true)
    (h : (formula.length : Int) < numClause % 2 ^ 64)
    (ht : t ≠ 0) (hb : ¬ (t > numVar ∨ t < -numVar)) :
    parseLoop numVar numClause formula clause (t :: rest) =
      parseLoop numVar numClause formula (clause ++ [t]) rest := by
  rw [parseLoop, if_pos hr, if_pos h, if_pos ht, if_neg hb]

theorem parseLoop_zero {numVar numClause : Int} {formula : Formula} (clause : Clause)
    (rest : List Int) (h : (formula.length : Int) < numClause % 2 ^ 64) :
    parseLoop numVar numClause formula clause (0 :: rest) =
      parseLoop numVar numClause (formula ++ [clause]) [] rest := by
  rw [parseLoop, if_pos (by decide), if_pos h, if_neg (by simp)]

theorem readTokens_nil : readTokens [] = [] := rfl

theorem readTokens_cons_read {t : Int} (rest : List Int) (hr : readsAsInt t = true) :
    readTokens (t :: rest) = t :: readTokens rest := by
  unfold readTokens
  rw [List.takeWhile_cons, if_pos hr]

theorem readTokens_cons_unread {t : Int} (rest : List Int) (hr : ¬ readsAsInt t = true) :
    readTokens (t :: rest) = [] := by
  unfold readTokens
  rw [List.takeWhile_cons, if_neg hr]

theorem readTokens_of_all {tokens : List Int} (h : ∀ t ∈ tokens, readsAsInt t = true) :
    readTokens tokens = tokens := by
  induction tokens with
  | nil => rfl
  | cons t rest ih =>
    rw [readTokens_cons_read rest (h t (List.mem_cons_self _ _)),
      ih (fun x hx => h x (List.mem_cons_of_mem _ hx))]

theorem out_of_range_iff (numVar t : Int) : (t > numVar ∨ t < -numVar) ↔ numVar < |t| := by
  rw [lt_abs]
  constructor
  · rintro (h | h)
    · exact Or.inl h
    · right; omega
  · rintro (h | h)
    · exact Or.inl h
    · right; omega

/-- Every literal stored by the constructor passed the range test. -/
theorem parseLoop_wellFormed (numVar numClause : Int) (tokens : List Int) :
    ∀ (formula : Formula) (clause : Clause) (F : Formula),
      WellFormed numVar formula → (∀ l ∈ clause, l ≠ 0 ∧ |l| ≤ numVar) →
      parseLoop numVar numClause formula clause tokens = Except.ok F →
      WellFormed numVar F := by
  induction tokens with
  | nil =>
    intro formula clause F hf _ h
    rw [parseLoop_nil] at h
    cases h
    exact hf
  | cons t rest ih =>
    intro formula clause F hf hc h
    by_cases hr : readsAsInt t = true
    · by_cases hlt : (formula.length : Int) < numClause % 2 ^ 64
      · by_cases ht : t = 0
        · subst ht
          rw [parseLoop_zero clause rest hlt] at h
          refine ih _ _ F ?_ (fun _ hl => by cases hl) h
          intro c hcm
          rcases List.mem_append.1 hcm with hm | hm
          · exact hf c hm
          · rw [List.mem_singleton] at hm
            subst hm
            exact hc
        · by_cases hb : t > numVar ∨ t < -numVar
          · rw [parseLoop_fatal clause rest hr hlt ht hb] at h
            cases h
          · rw [parseLoop_literal clause rest hr hlt ht hb] at h
            refine ih _ _ F hf ?_ h
            intro l hl
            rcases List.mem_append.1 hl with hm | hm
            · exact hc l hm
            · rw [List.mem_singleton] at hm
              subst hm
              refine ⟨ht, ?_⟩
              rw [out_of_range_iff] at hb
              exact not_lt.1 hb
      · rw [parseLoop_done clause rest hr hlt] at h
        cases h
        exact hf
    · rw [parseLoop_unread formula clause rest hr] at h
      cases h
      exact hf

/-- For a clause count in the non-negative range of `int`, the number of
clauses built is the smaller of `numClause` and the number of zero tokens
read. -/
theorem parseLoop_length {numVar numClause : Int} (h0 : 0 ≤ numClause)
    (h1 : numClause < 2 ^ 64) (tokens : List Int) :
    ∀ (formula : Formula) (clause : Clause) (F : Formula),
      (formula.length : Int) ≤ numClause →
      parseLoop numVar numClause formula clause tokens = Except.ok F →
      (F.length : Int) =
        min numClause ((formula.length : Int) + ((readTokens tokens).count 0 : Nat)) := by
  have hmod : numClause % 2 ^ 64 = numClause := Int.emod_eq_of_lt h0 h1
  induction tokens with
  | nil =>
    intro formula clause F hle h
    rw [parseLoop_nil] at h
    cases h
    simp only [readTokens_nil, List.count_nil, Nat.cast_zero, add_zero]
    exact (min_eq_right hle).symm
  | cons t rest ih =>
    intro formula clause F hle h
    by_cases hr : readsAsInt t = true
    · rw [readTokens_cons_read rest hr]
      by_cases hlt : (formula.length : Int) < numClause % 2 ^ 64
      · by_cases ht : t = 0
        · subst ht
          rw [parseLoop_zero clause rest hlt] at h
          rw [hmod] at hlt
          have hle2 : (((formula ++ [clause]).length : Nat) : Int) ≤ numClause := by
            rw [List.length_append, List.length_singleton]
            push_cast
            omega
          rw [ih _ _ F hle2 h, List.length_append, List.length_singleton,
            List.count_cons_self]
          push_cast
          congr 1
          ring
        · by_cases hb : t > numVar ∨ t < -numVar
          · rw [parseLoop_fatal clause rest hr hlt ht hb] at h
            cases h
          · rw [parseLoop_literal clause rest hr hlt ht hb] at h
            rw [ih _ _ F hle h, List.count_cons_of_ne (fun e => ht e.symm)]
      · rw [parseLoop_done clause rest hr hlt] at h
        cases h
        rw [hmod] at hlt
        have : (formula.length : Int) = numClause := by omega
        rw [this]
        refine (min_eq_left ?_).symm
        have : (0 : Int) ≤ ((List.count 0 (t :: readTokens rest) : Nat) : Int) :=
          Int.ofNat_nonneg _
        omega
    · rw [parseLoop_unread formula clause rest hr] at h
      cases h
      rw [readTokens_cons_unread rest hr]
      simp only [List.count_nil, Nat.cast_zero, add_zero]
      exact (min_eq_right hle).symm

/-- For a clause count in the non-negative range of `int`, the loop ends in
`exit(1)` exactly when an out-of-range nonzero token is read behind fewer than
`numClause` completed clauses. -/
theorem parseLoop_error_iff {numVar numClause : Int} (h0 : 0 ≤ numClause)
    (h1 : numClause < 2 ^ 64) (tokens : List Int) :
    ∀ (formula : Formula) (clause : Clause) (e : Nat),
      parseLoop numVar numClause formula clause tokens = Except.error e ↔
        e = 1 ∧ ∃ pre lit post, readTokens tokens = pre ++ lit :: post ∧ lit ≠ 0 ∧
          numVar < |lit| ∧ (formula.length : Int) + (pre.count 0 : Nat) < numClause := by
  have hmod : numClause % 2 ^ 64 = numClause := Int.emod_eq_of_lt h0 h1
  induction tokens with
  | nil =>
    intro formula clause e
    rw [parseLoop_nil, readTokens_nil]
    constructor
    · intro h
      cases h
    · rintro ⟨_, pre, lit, post, hsplit, _⟩
      cases pre <;> cases hsplit
  | cons t rest ih =>
    intro formula clause e
    by_cases hr : readsAsInt t = true
    · rw [readTokens_cons_read rest hr]
      by_cases hlt : (formula.length : Int) < numClause % 2 ^ 64
      · by_cases ht : t = 0
        · subst ht
          rw [parseLoop_zero clause rest hlt, ih]
          constructor
          · rintro ⟨he, pre, lit, post, hsplit, hl0, hlb, hcnt⟩
            refine ⟨he, 0 :: pre, lit, post, by rw [hsplit]; rfl, hl0, hlb, ?_⟩
            rw [List.count_cons_self]
            rw [List.length_append, List.length_singleton] at hcnt
            push_cast at hcnt ⊢
            omega
          · rintro ⟨he, pre, lit, post, hsplit, hl0, hlb, hcnt⟩
            cases pre with
            | nil =>
              simp only [List.nil_append, List.cons.injEq] at hsplit
              exact absurd hsplit.1.symm hl0
            | cons p pre2 =>
              simp only [List.cons_append, List.cons.injEq] at hsplit
              obtain ⟨hp, hrest⟩ := hsplit
              subst hp
              refine ⟨he, pre2, lit, post, hrest, hl0, hlb, ?_⟩
              rw [List.count_cons_self] at hcnt
              rw [List.length_append, List.length_singleton]
              push_cast at hcnt ⊢
              omega
        · by_cases hb : t > numVar ∨ t < -numVar
          · rw [parseLoop_fatal clause rest hr hlt ht hb]
            constructor
            · intro h
              cases h
              refine ⟨rfl, [], t, readTokens rest, rfl, ht,
                (out_of_range_iff numVar t).1 hb, ?_⟩
              rw [hmod] at hlt
              simpa using hlt
            · rintro ⟨he, _⟩
              rw [he]
          · rw [parseLoop_literal clause rest hr hlt ht hb, ih]
            constructor
            · rintro ⟨he, pre, lit, post, hsplit, hl0, hlb, hcnt⟩
              refine ⟨he, t :: pre, lit, post, by rw [hsplit]; rfl, hl0, hlb, ?_⟩
              rw [List.count_cons_of_ne (fun e => ht e.symm)]
              exact hcnt
            · rintro ⟨he, pre, lit, post, hsplit, hl0, hlb, hcnt⟩
              cases pre with
              | nil =>
                simp only [List.nil_append, List.cons.injEq] at hsplit
                rw [← hsplit.1] at hlb
                exact absurd ((out_of_range_iff numVar t).2 hlb) hb
              | cons p pre2 =>
                simp only [List.cons_append, List.cons.injEq] at hsplit
                obtain ⟨hp, hrest⟩ := hsplit
                subst hp
                refine ⟨he, pre2, lit, post, hrest, hl0, hlb, ?_⟩
                rw [List.count_cons_of_ne (fun e => ht e.symm)] at hcnt
                exact hcnt
      · rw [parseLoop_done clause rest hr hlt]
        constructor
        · intro h
          cases h
        · rintro ⟨_, pre, lit, post, _, _, _, hcnt⟩
          rw [hmod] at hlt
          have : (0 : Int) ≤ ((List.count 0 pre : Nat) : Int) := Int.ofNat_nonneg _
          omega
    · rw [parseLoop_unread formula clause rest hr, readTokens_cons_unread rest hr]
      constructor
      · intro h
        cases h
      · rintro ⟨_, pre, lit, post, hsplit, _⟩
        cases pre <;> cases hsplit

theorem Solver_error_iff {numVar numClause : Int} (h0 : 0 ≤ numClause)
    (h1 : numClause < 2 ^ 31) (tokens : List Int) :
    Solver numVar numClause tokens = Except.error 1 ↔
      BadTokenRead numVar numClause (readTokens tokens) := by
  unfold Solver BadTokenRead
  rw [parseLoop_error_iff h0 (lt_trans h1 (by norm_num)) tokens [] [] 1]
  simp

theorem Solver_ok_of_not_bad {numVar numClause : Int} (h0 : 0 ≤ numClause)
    (h1 : numClause < 2 ^ 31) (tokens : List Int)
    (h : ¬ BadTokenRead numVar numClause (readTokens tokens)) :
    ∃ F, Solver numVar numClause tokens = Except.ok F ∧ WellFormed numVar F := by
  cases hS : Solver numVar numClause tokens with
  | error e =>
    exfalso
    apply h
    unfold Solver at hS
    have := (parseLoop_error_iff h0 (lt_trans h1 (by norm_num)) tokens [] [] e).1 hS
    rw [this.1] at hS
    exact (Solver_error_iff h0 h1 tokens).1 hS
  | ok F =>
    refine ⟨F, rfl, ?_⟩
    unfold Solver at hS
    exact parseLoop_wellFormed numVar numClause tokens [] [] F
      (fun _ hc => by cases hc) (fun _ hl => by cases hl) hS

theorem chosen_undecided {F : Formula} {A : Asgmt} {v : Var}
    (hv : chooseVar (BCP F A).1 = some v) : v ∉ (BCP F A).2 ∧ -v ∉ (BCP F A).2 := by
  obtain ⟨l, c, rest, hR, hvl⟩ := chooseVar_some hv
  have hmem : (l :: c) ∈ (BCP F A).1 := by rw [hR]; exact List.mem_cons_self _ _
  have habs : ∀ a ∈ (BCP F A).2, a ∉ (l :: c) ∧ -a ∉ (l :: c) := by
    intro a ha
    have := applyAsgmt_absent F (BCP F A).2
    rw [← BCP_eq_applyAsgmt] at this
    exact this _ hmem a ha
  have hl1 : l ∉ (BCP F A).2 := fun h => (habs l h).1 (List.mem_cons_self _ _)
  have hl2 : -l ∉ (BCP F A).2 := by
    intro h
    have := (habs (-l) h).2
    rw [neg_neg] at this
    exact this (List.mem_cons_self _ _)
  have hl : v = l ∨ v = -l := by
    rw [hvl]
    exact abs_choice l
  rcases hl with e | e <;> rw [e]
  · exact ⟨hl1, hl2⟩
  · rw [neg_neg]
    exact ⟨hl2, hl1⟩

/-! ### Evaluations on concrete inputs -/

theorem BCP_clause123 : BCP [[1, 2, 3]] [] = ([[1, 2, 3]], []) := by
  simp [BCP, bcpLoop, applyAsgmt, firstUnit]

theorem BCP_clause123_branch : BCP [[1, 2, 3]] ([] ++ [getLit 1 true]) = ([], [1]) := by
  simp [BCP, bcpLoop, applyAsgmt, firstUnit, applyLit, getLit]

theorem solve_clause123 : solve [[1, 2, 3]] [] [] = some (true, [1]) := by
  have h1 : ¬ (BCP [[1, 2, 3]] []).1.length = 0 := by rw [BCP_clause123]; decide
  have h2 : ¬ haveConflict (BCP [[1, 2, 3]] []).1 = true := by rw [BCP_clause123]; decide
  have h3 : chooseVar (BCP [[1, 2, 3]] []).1 = some 1 := by
    rw [BCP_clause123]; simp [chooseVar, getVar]
  rw [solve_branch [] h1 h2 h3, BCP_clause123]
  have h4 : (BCP [[1, 2, 3]] ([] ++ [getLit 1 true])).1.length = 0 := by
    rw [BCP_clause123_branch]; rfl
  rw [solve_sat [] h4, BCP_clause123_branch]

theorem solve_tautology_clause : solve [[1, -1]] [] [] = some (false, []) := by
  have hB : BCP [[1, -1]] [] = ([[1, -1]], []) := by
    simp [BCP, bcpLoop, applyAsgmt, firstUnit]
  have h1 : ¬ (BCP [[1, -1]] []).1.length = 0 := by rw [hB]; decide
  have h2 : haveConflict (BCP [[1, -1]] []).1 = true := by rw [hB]; decide
  exact solve_conflict [] h1 h2

theorem solve_opposite_units : solve [[1], [-1]] [] [] = some (false, []) := by
  have hB : BCP [[1], [-1]] [] = ([[]], [1]) := by
    simp [BCP, bcpLoop, applyAsgmt, firstUnit, applyLit]
  have h1 : ¬ (BCP [[1], [-1]] []).1.length = 0 := by rw [hB]; decide
  have h2 : haveConflict (BCP [[1], [-1]] []).1 = true := by rw [hB]; decide
  exact solve_conflict [] h1 h2

theorem BCP_chain : BCP [[1], [-1, 2], [-2, 3, 4]] [] = ([[3, 4]], [1, 2]) := by
  simp [BCP, bcpLoop, applyAsgmt, firstUnit, applyLit]

theorem BCP_tautology_pair : BCP [[2, -2], [1, 2]] [] = ([[2, -2], [1, 2]], []) := by
  simp [BCP, bcpLoop, applyAsgmt, firstUnit]

theorem Solver_negative_count : Solver 1 (-1) [5] = Except.error 1 := by
  simp [Solver, parseLoop, readsAsInt]

theorem Solver_short_stream : Solver 1 2 [1, 0] = Except.ok [[1]] := by
  simp [Solver, parseLoop, readsAsInt]

theorem Solver_unread_token :
    Solver 1 3 [1, 0, 99999999999, 0] = Except.ok [[1]] := by
  simp [Solver, parseLoop, readsAsInt]

theorem Solver_unread_first : Solver 1 1 [99999999999, 0] = Except.ok [] := by
  simp [Solver, parseLoop, readsAsInt]

theorem readTokens_unread_token : readTokens [1, 0, 99999999999, 0] = [1, 0] := by
  simp [readTokens, readsAsInt, List.takeWhile]

theorem BCP_chain3 :
    BCP [[1, 2], [-1, 3], [-3, 4, 5]] [] = ([[1, 2], [-1, 3], [-3, 4, 5]], []) := by
  simp [BCP, bcpLoop, applyAsgmt, firstUnit]

theorem BCP_chain3_first :
    BCP [[1, 2], [-1, 3], [-3, 4, 5]] [1] = ([[4, 5]], [1, 3]) := by
  simp [BCP, bcpLoop, applyAsgmt, firstUnit, applyLit]

theorem call_chain3_first :
    Call [[1, 2], [-1, 3], [-3, 4, 5]] [] [[1, 2], [-1, 3], [-3, 4, 5]] [1] [] := by
  have h1 : ¬ (BCP [[1, 2], [-1, 3], [-3, 4, 5]] []).1.length = 0 := by
    rw [BCP_chain3]; decide
  have h2 : ¬ haveConflict (BCP [[1, 2], [-1, 3], [-3, 4, 5]] []).1 = true := by
    rw [BCP_chain3]; decide
  have h3 : chooseVar (BCP [[1, 2], [-1, 3], [-3, 4, 5]] []).1 = some 1 := by
    rw [BCP_chain3]; simp [chooseVar, getVar]
  have h := Call.first
    (Call.root : Call [[1, 2], [-1, 3], [-3, 4, 5]] [] [[1, 2], [-1, 3], [-3, 4, 5]] [] [])
    h1 h2 h3
  rw [BCP_chain3] at h
  simpa [getLit] using h

theorem not_badTokenRead_negative : ¬ BadTokenRead 1 (-1) [5] := by
  rintro ⟨pre, lit, post, _, _, _, hcnt⟩
  have : (0 : Int) ≤ ((List.count 0 pre : Nat) : Int) := Int.ofNat_nonneg _
  omega

/-! ## The claims -/

/-- C1 (soundness). For a well-formed formula, when `solve` started with the
empty assignment returns `SAT` and records `S`, every clause of the original
formula holds a literal that is true under the assignment `printAsgmt` renders,
and in that assignment a variable `v` of `1..numVar` is false exactly when `-v`
occurs in `S`. -/
theorem C1_soundness (numVar : Int) (F : Formula) (st S : Asgmt)
    (hwf : WellFormed numVar F) (hsat : solve F [] st = some (true, S)) :
    Satisfies (renderedVal numVar S) F ∧
      ∀ v : Int, 1 ≤ v → v ≤ numVar → (renderedVal numVar S v = false ↔ -v ∈ S) := by
  refine ⟨solve_sat_rendered hwf hsat, fun v h1 h2 => ?_⟩
  unfold renderedVal
  rw [decide_eq_false_iff_not, mem_printAsgmt_pos S h1 h2, not_not]

theorem C1_soundness_witness :
    WellFormed 3 [[1, 2, 3]] ∧ solve [[1, 2, 3]] [] [] = some (true, [1]) ∧
      (Satisfies (renderedVal 3 [1]) [[1, 2, 3]] ∧
        ∀ v : Int, 1 ≤ v → v ≤ 3 → (renderedVal 3 [1] v = false ↔ -v ∈ ([1] : Asgmt))) :=
  ⟨by unfold WellFormed; decide, solve_clause123,
    C1_soundness 3 [[1, 2, 3]] [] [1] (by unfold WellFormed; decide) solve_clause123⟩

/-- C2 as stated fails: the well-formed one-clause formula `{1, -1}` over one
variable is answered `UNSAT` although the valuation making variable 1 true
satisfies it. -/
theorem C2_counterexample :
    WellFormed 1 [[1, -1]] ∧ solve [[1, -1]] [] [] = some (false, []) ∧
      Satisfies (fun _ => true) [[1, -1]] :=
  ⟨by unfold WellFormed; decide, solve_tautology_clause,
    by unfold Satisfies litTrue; decide⟩

/-- C2 (completeness, amended). For a well-formed formula in which no clause
holds a literal together with its negation, when `solve` started with the empty
assignment returns `UNSAT`, no truth assignment of the variables satisfies all
clauses of the original formula. -/
theorem C2_completeness_tautology_free (numVar : Int) (F : Formula) (st S : Asgmt)
    (_hwf : WellFormed numVar F) (hnt : NoTautology F)
    (hunsat : solve F [] st = some (false, S)) :
    ∀ val : Var → Bool, ¬ Satisfies val F :=
  fun val => solve_unsat_no_model F [] st hnt S hunsat val (fun _ ha => by cases ha)

theorem C2_completeness_tautology_free_witness :
    WellFormed 1 [[1], [-1]] ∧ NoTautology [[1], [-1]] ∧
      solve [[1], [-1]] [] [] = some (false, []) ∧
      ∀ val : Var → Bool, ¬ Satisfies val [[1], [-1]] :=
  ⟨by unfold WellFormed; decide, by unfold NoTautology; decide, solve_opposite_units,
    C2_completeness_tautology_free 1 [[1], [-1]] [] [] (by unfold WellFormed; decide)
      (by unfold NoTautology; decide) solve_opposite_units⟩

/-- C3. For a well-formed formula in which no clause holds a literal together
with its negation, `solve` started with the empty assignment returns `SAT`
exactly when some truth assignment satisfies every clause. -/
theorem C3_sat_iff_satisfiable (numVar : Int) (F : Formula) (st : Asgmt)
    (hwf : WellFormed numVar F) (hnt : NoTautology F) :
    (∃ val : Var → Bool, Satisfies val F) ↔ ∃ S, solve F [] st = some (true, S) := by
  constructor
  · rintro ⟨val, hval⟩
    obtain ⟨b, S, hS⟩ := solve_total F [] st
    cases b
    · exact absurd hval
        (solve_unsat_no_model F [] st hnt S hS val (fun _ ha => by cases ha))
    · exact ⟨S, hS⟩
  · rintro ⟨S, hS⟩
    exact ⟨renderedVal numVar S, solve_sat_rendered hwf hS⟩

theorem C3_sat_iff_satisfiable_witness :
    WellFormed 3 [[1, 2, 3]] ∧ NoTautology [[1, 2, 3]] ∧
      (∃ val : Var → Bool, Satisfies val [[1, 2, 3]]) ∧
      ∃ S, solve [[1, 2, 3]] [] [] = some (true, S) :=
  have hsat : ∃ val : Var → Bool, Satisfies val [[1, 2, 3]] :=
    ⟨fun _ => true, by unfold Satisfies litTrue; decide⟩
  ⟨by unfold WellFormed; decide, by unfold NoTautology; decide, hsat,
    (C3_sat_iff_satisfiable 3 [[1, 2, 3]] [] (by unfold WellFormed; decide)
      (by unfold NoTautology; decide)).1 hsat⟩

/-- C4 (termination). For every formula, starting assignment and stored
assignment, `solve` returns `SAT` or `UNSAT`; and whenever the propagated
formula is non-empty and conflict-free, `chooseVar` yields a variable such that
propagating the formula extended by either decision on it gives a formula of
strictly smaller size (clauses plus literals). -/
theorem C4_termination (F : Formula) (A st : Asgmt) :
    (∃ b S, solve F A st = some (b, S)) ∧
      (¬ (BCP F A).1.length = 0 ∧ ¬ haveConflict (BCP F A).1 = true →
        ∃ v, chooseVar (BCP F A).1 = some v ∧
          ∀ value : Bool,
            fsize (BCP (BCP F A).1 ((BCP F A).2 ++ [getLit v value])).1
              < fsize (BCP F A).1) := by
  refine ⟨solve_total F A st, fun h => ?_⟩
  obtain ⟨l, c, rest, hR⟩ := chooseVar_defined h.1 h.2
  have hv : chooseVar (BCP F A).1 = some (getVar l) := by rw [hR]; rfl
  exact ⟨getVar l, hv, fun value =>
    lt_of_le_of_lt (fsize_BCP_le _ _) (fsize_branch_lt hv _ value)⟩

/-- C5. For every formula and every assignment deciding each variable at most
once, `applyAsgmt` returns the clauses holding no literal of the assignment, in
their order, each with the literals whose negation is in the assignment
removed. -/
theorem C5_applyAsgmt_declarative (F : Formula) (A : Asgmt) (hA : DecidedOnce A) :
    applyAsgmt F A =
      (F.filter (fun c => decide (∀ a ∈ A, a ∉ c))).map
        (fun c => c.filter (fun l => decide (-l ∉ A))) :=
  applyAsgmt_eq_applySpec F A hA

theorem C5_applyAsgmt_declarative_witness :
    DecidedOnce [1, -3] ∧
      applyAsgmt [[1, 2], [-1, 3, -1, 2], [3, 4], [-3]] [1, -3] =
        ([[1, 2], [-1, 3, -1, 2], [3, 4], [-3]].filter
            (fun c => decide (∀ a ∈ ([1, -3] : Asgmt), a ∉ c))).map
          (fun c => c.filter (fun l => decide (-l ∉ ([1, -3] : Asgmt)))) :=
  ⟨by unfold DecidedOnce getVar; decide,
    C5_applyAsgmt_declarative _ [1, -3] (by unfold DecidedOnce getVar; decide)⟩

/-- C6 (order independence). For assignments `A` and `B` that are permutations
of each other and decide each variable at most once, `applyAsgmt F A` and
`applyAsgmt F B` are the same formula. -/
theorem C6_applyAsgmt_perm (F : Formula) (A B : Asgmt) (hA : DecidedOnce A)
    (hB : DecidedOnce B) (hAB : A.Perm B) : applyAsgmt F A = applyAsgmt F B := by
  rw [applyAsgmt_eq_applySpec F A hA, applyAsgmt_eq_applySpec F B hB]
  exact applySpec_congr F A B (fun _ => hAB.mem_iff)

theorem C6_applyAsgmt_perm_witness :
    DecidedOnce [1, -2] ∧ DecidedOnce [-2, 1] ∧ List.Perm ([1, -2] : Asgmt) [-2, 1] ∧
      applyAsgmt [[1, 2], [-1, 3], [2, -3]] [1, -2] =
        applyAsgmt [[1, 2], [-1, 3], [2, -3]] [-2, 1] :=
  ⟨by unfold DecidedOnce getVar; decide, by unfold DecidedOnce getVar; decide,
    List.Perm.swap (-2) 1 [],
    C6_applyAsgmt_perm _ [1, -2] [-2, 1] (by unfold DecidedOnce getVar; decide)
      (by unfold DecidedOnce getVar; decide) (List.Perm.swap (-2) 1 [])⟩

/-- C7 (idempotence). For every formula and assignment, applying the assignment
to the already simplified formula changes nothing, and after one application no
clause holds a literal of the assignment or the negation of one. -/
theorem C7_applyAsgmt_idempotent (F : Formula) (A : Asgmt) :
    applyAsgmt (applyAsgmt F A) A = applyAsgmt F A ∧
      ∀ d ∈ applyAsgmt F A, ∀ a ∈ A, a ∉ d ∧ -a ∉ d :=
  ⟨applyAsgmt_idem F A, applyAsgmt_absent F A⟩

/-- C8. For every formula and assignment, `BCP`, which re-applies the growing
assignment to its working copy, returns the same pair as propagation that
re-applies it to the original formula; the returned formula is `applyAsgmt` of
the original formula under the returned assignment. -/
theorem C8_BCP_reapplies_original (F : Formula) (A : Asgmt) :
    BCP F A = bcpSpec F A ∧ (BCP F A).1 = applyAsgmt F (BCP F A).2 :=
  ⟨bcpLoop_eq_bcpSpec F _ A rfl, BCP_eq_applyAsgmt F A⟩

/-- C9. For every formula and assignment, the formula returned by `BCP` has no
clause of size exactly one. -/
theorem C9_BCP_no_unit (F : Formula) (A : Asgmt) :
    ∀ c ∈ (BCP F A).1, c.length ≠ 1 :=
  bcpLoop_no_unit _ A

theorem C9_BCP_no_unit_witness :
    [3, 4] ∈ (BCP [[1], [-1, 2], [-2, 3, 4]] []).1 ∧ ([3, 4] : Clause).length ≠ 1 :=
  ⟨by rw [BCP_chain]; decide,
    C9_BCP_no_unit [[1], [-1, 2], [-2, 3, 4]] [] [3, 4] (by rw [BCP_chain]; decide)⟩

/-- C10. For every formula whose literals are all nonzero, `haveConflict`
returns true exactly when some clause is empty, or two clauses of size one hold
opposite literals, or some clause holds both a literal and its negation. -/
theorem C10_haveConflict_cases (F : Formula) (hz : ∀ c ∈ F, ∀ l ∈ c, l ≠ (0 : Lit)) :
    haveConflict F = true ↔
      (∃ c ∈ F, c = []) ∨ (∃ l, [l] ∈ F ∧ [-l] ∈ F) ∨ (∃ c ∈ F, ∃ l ∈ c, -l ∈ c) := by
  unfold haveConflict
  rw [haveConflictFrom_iff [] F (fun c hc h0 => hz c hc 0 h0 rfl)]
  constructor
  · rintro (h | ⟨l, _, hl⟩ | h | h)
    · exact Or.inl h
    · cases hl
    · exact Or.inr (Or.inl h)
    · exact Or.inr (Or.inr h)
  · rintro (h | h | h)
    · exact Or.inl h
    · exact Or.inr (Or.inr (Or.inl h))
    · exact Or.inr (Or.inr (Or.inr h))

theorem C10_haveConflict_cases_witness :
    (∀ c ∈ ([[1], [-1]] : Formula), ∀ l ∈ c, l ≠ (0 : Lit)) ∧
      (haveConflict [[1], [-1]] = true ↔
        (∃ c ∈ ([[1], [-1]] : Formula), c = []) ∨
          (∃ l, [l] ∈ ([[1], [-1]] : Formula) ∧ [-l] ∈ ([[1], [-1]] : Formula)) ∨
          (∃ c ∈ ([[1], [-1]] : Formula), ∃ l ∈ c, -l ∈ c)) :=
  ⟨by decide, C10_haveConflict_cases [[1], [-1]] (by decide)⟩

/-- C11 (tautology as conflict). For every formula, when the formula left by
the root propagation pass `BCP F []` holds a clause with some literal and its
negation, `solve` from the empty assignment returns `UNSAT`; so does every
formula without unit clauses that has such a clause. -/
theorem C11_tautology_is_conflict (F : Formula) (st : Asgmt) :
    ((∃ c ∈ (BCP F []).1, ∃ l ∈ c, -l ∈ c) → solve F [] st = some (false, st)) ∧
      ((∀ c ∈ F, c.length ≠ 1) → (∃ c ∈ F, ∃ l ∈ c, -l ∈ c) →
        solve F [] st = some (false, st)) := by
  refine ⟨solve_of_tautology F [] st, fun hu ht => ?_⟩
  apply solve_of_tautology
  rw [BCP_of_no_unit hu]
  exact ht

theorem C11_tautology_is_conflict_witness :
    (∃ c ∈ (BCP [[2, -2], [1, 2]] []).1, ∃ l ∈ c, -l ∈ c) ∧
      solve [[2, -2], [1, 2]] [] [] = some (false, []) :=
  have h : ∃ c ∈ (BCP [[2, -2], [1, 2]] []).1, ∃ l ∈ c, -l ∈ c := by
    rw [BCP_tautology_pair]
    exact ⟨[2, -2], by decide, 2, by decide, by decide⟩
  ⟨h, (C11_tautology_is_conflict [[2, -2], [1, 2]] []).1 h⟩

/-- C12 (empty formula). For every `numVar`, solving the formula with zero
clauses returns `SAT` in the root call alone (depth bound 1), the recorded
assignment is empty, and the rendered assignment lists `1, 2, ..., numVar`, all
positive; for `numVar = 2` it is `1, 2`. -/
theorem C12_empty_formula (numVar : Int) (st : Asgmt) :
    solveFuel 1 [] [] st = some (some (true, [])) ∧
      solve [] [] st = some (true, []) ∧
      printAsgmt numVar [] = List.map (fun i : Nat => (i : Int) + 1) (List.range numVar.toNat) ∧
      printAsgmt 2 [] = [1, 2] := by
  have hB : BCP [] [] = ([], []) := by
    simp [BCP, bcpLoop, applyAsgmt, firstUnit]
  have h0 : (BCP [] []).1.length = 0 := by rw [hB]; rfl
  refine ⟨?_, ?_, ?_, by decide⟩
  · rw [solveFuel_sat 0 st h0, hB]
  · rw [solve_sat st h0, hB]
  · unfold printAsgmt
    simp

/-- C13 (opposite unit clauses). For every well-formed formula holding a clause
that is the single literal `v` and a clause that is the single literal `-v`,
`solve` from the empty assignment returns `UNSAT`. -/
theorem C13_opposite_units_unsat (numVar : Int) (F : Formula) (st : Asgmt) (v : Lit)
    (hwf : WellFormed numVar F) (h1 : [v] ∈ F) (h2 : [-v] ∈ F) :
    solve F [] st = some (false, st) :=
  solve_opposite_unit_clauses st hwf h1 h2

theorem C13_opposite_units_unsat_witness :
    WellFormed 1 [[1], [-1]] ∧ [1] ∈ ([[1], [-1]] : Formula) ∧
      [-1] ∈ ([[1], [-1]] : Formula) ∧ solve [[1], [-1]] [] [] = some (false, []) :=
  ⟨by unfold WellFormed; decide, by decide, by decide,
    C13_opposite_units_unsat 1 [[1], [-1]] [] 1 (by unfold WellFormed; decide)
      (by decide) (by decide)⟩

/-- C14 at the input `numVar = 1`, `numClause = -1`, tokens `5`: no token is
read while fewer than `-1` clauses are completed, yet the constructor ends in
`exit(1)`, because the comparison with `formula.size()` converts `-1` to an
unsigned value. -/
theorem C14_negative_numClause_fatal :
    Solver 1 (-1) [5] = Except.error 1 ∧ ¬ BadTokenRead 1 (-1) [5] :=
  ⟨Solver_negative_count, not_badTokenRead_negative⟩

/-- C15 as stated fails: for `numVar = 1`, `numClause = 2` and the tokens
`1 0` the constructor returns normally with a formula of one clause. -/
theorem C15_counterexample :
    ∃ F, Solver 1 2 [1, 0] = Except.ok F ∧ (F.length : Int) ≠ 2 :=
  ⟨[[1]], Solver_short_stream, by decide⟩

/-- C15 (amended). When the constructor returns normally and `numClause` is a
non-negative `int`, the number of clauses of the formula is the smaller of
`numClause` and the number of zero tokens read, the tokens read being those
before the end of the stream or the first token that does not read as an
`int`: at most `numClause`, and exactly `numClause` when at least that many
zero tokens are read.  When every token reads as an `int`, the zero tokens read
are the zero tokens of the stream. -/
theorem C15_clause_count (numVar numClause : Int) (tokens : List Int) (F : Formula)
    (h0 : 0 ≤ numClause) (h1 : numClause < 2 ^ 31)
    (h : Solver numVar numClause tokens = Except.ok F) :
    (F.length : Int) = min numClause ((readTokens tokens).count 0 : Nat) ∧
      (F.length : Int) ≤ numClause ∧
      (numClause ≤ ((readTokens tokens).count 0 : Nat) → (F.length : Int) = numClause) ∧
      ((∀ t ∈ tokens, readsAsInt t = true) →
        (F.length : Int) = min numClause (tokens.count 0 : Nat)) := by
  have hlen := parseLoop_length h0 (lt_trans h1 (by norm_num)) tokens [] [] F
    (by simpa using h0) h
  simp only [List.length_nil, Nat.cast_zero, zero_add] at hlen
  refine ⟨hlen, ?_, fun hge => ?_, fun hall => ?_⟩
  · rw [hlen]
    exact min_le_left _ _
  · rw [hlen]
    exact min_eq_left hge
  · rw [hlen, readTokens_of_all hall]

theorem C15_clause_count_witness :
    (0 : Int) ≤ 3 ∧ (3 : Int) < 2 ^ 31 ∧
      Solver 1 3 [1, 0, 99999999999, 0] = Except.ok [[1]] ∧
      readTokens [1, 0, 99999999999, 0] = [1, 0] ∧
      ((([[1]] : Formula).length : Int) =
          min 3 (((readTokens [1, 0, 99999999999, 0]).count 0 : Nat) : Int) ∧
        (([[1]] : Formula).length : Int) ≤ 3 ∧
        ((3 : Int) ≤ (((readTokens [1, 0, 99999999999, 0]).count 0 : Nat) : Int) →
          (([[1]] : Formula).length : Int) = 3) ∧
        ((∀ t ∈ ([1, 0, 99999999999, 0] : List Int), readsAsInt t = true) →
          (([[1]] : Formula).length : Int) =
            min 3 ((([1, 0, 99999999999, 0] : List Int).count 0 : Nat) : Int))) :=
  ⟨by decide, by decide, Solver_unread_token, readTokens_unread_token,
    C15_clause_count 1 3 [1, 0, 99999999999, 0] [[1]] (by decide) (by decide)
      Solver_unread_token⟩

/-- C16 (no variable is decided twice). For a formula with nonzero literals
solved from the empty assignment, at every call of `solve`: the assignment it
receives, every assignment at a scan of `BCP` in it, the assignment `BCP`
leaves and the assignment recorded on `SAT` hold each variable at most once;
every literal `BCP` appends and the variable `chooseVar` picks are undecided at
that moment. -/
theorem C16_no_variable_decided_twice (F0 F : Formula) (st0 A st : Asgmt)
    (hz : ∀ c ∈ F0, ∀ l ∈ c, l ≠ (0 : Lit)) (hc : Call F0 st0 F A st) :
    NeverTwice A ∧
      (∀ W B, BcpState F A W B → NeverTwice B) ∧
      NeverTwice (BCP F A).2 ∧
      (∀ S, solve F A st = some (true, S) → NeverTwice S) ∧
      (∀ W B l, BcpState F A W B → firstUnit W = some l → l ∉ B ∧ -l ∉ B) ∧
      (∀ v, chooseVar (BCP F A).1 = some v → v ∉ (BCP F A).2 ∧ -v ∉ (BCP F A).2) := by
  obtain ⟨h1, h2, h3⟩ := call_inv hc (fun c hc0 h0 => hz c hc0 0 h0 rfl)
  refine ⟨neverTwice_of h2 h3, ?_, ?_, ?_, ?_, fun v hv => chosen_undecided hv⟩
  · intro W B hs
    obtain ⟨_, hB, hB0⟩ := bcpState_inv hs h1 h2 h3
    exact neverTwice_of hB hB0
  · obtain ⟨hB, hB0⟩ := BCP_decidedOnce F A h1 h2 h3
    exact neverTwice_of hB hB0
  · intro S hS
    obtain ⟨hd, hd0⟩ := solve_sat_decidedOnce F A st h1 h2 h3 S hS
    exact neverTwice_of hd hd0
  · intro W B l hs hl
    exact unit_undecided (bcpState_absent hs) (firstUnit_mem hl)

theorem C16_no_variable_decided_twice_witness :
    (∀ c ∈ ([[1, 2], [-1, 3], [-3, 4, 5]] : Formula), ∀ l ∈ c, l ≠ (0 : Lit)) ∧
      Call [[1, 2], [-1, 3], [-3, 4, 5]] [] [[1, 2], [-1, 3], [-3, 4, 5]] [1] [] ∧
      BCP [[1, 2], [-1, 3], [-3, 4, 5]] [1] = ([[4, 5]], [1, 3]) ∧
      (NeverTwice [1] ∧
        (∀ W B, BcpState [[1, 2], [-1, 3], [-3, 4, 5]] [1] W B → NeverTwice B) ∧
        NeverTwice (BCP [[1, 2], [-1, 3], [-3, 4, 5]] [1]).2 ∧
        (∀ S, solve [[1, 2], [-1, 3], [-3, 4, 5]] [1] [] = some (true, S) → NeverTwice S) ∧
        (∀ W B l, BcpState [[1, 2], [-1, 3], [-3, 4, 5]] [1] W B → firstUnit W = some l →
          l ∉ B ∧ -l ∉ B) ∧
        (∀ v, chooseVar (BCP [[1, 2], [-1, 3], [-3, 4, 5]] [1]).1 = some v →
          v ∉ (BCP [[1, 2], [-1, 3], [-3, 4, 5]] [1]).2 ∧
            -v ∉ (BCP [[1, 2], [-1, 3], [-3, 4, 5]] [1]).2)) :=
  ⟨by decide, call_chain3_first, BCP_chain3_first,
    C16_no_variable_decided_twice [[1, 2], [-1, 3], [-3, 4, 5]]
      [[1, 2], [-1, 3], [-3, 4, 5]] [] [1] [] (by decide) call_chain3_first⟩

/-- C17. Whenever a call of `solve` reaches `chooseVar`, that is when the
propagated formula is non-empty and conflict-free, the formula has a first
clause with a first literal, `chooseVar` returns the absolute value of that
literal, and for a well-formed formula the propagated formula is well-formed
again and the chosen variable lies in `1..numVar`. -/
theorem C17_chooseVar_precondition (numVar : Int) (F : Formula) (A : Asgmt)
    (h1 : ¬ (BCP F A).1.length = 0) (h2 : ¬ haveConflict (BCP F A).1 = true) :
    ∃ l c rest, (BCP F A).1 = (l :: c) :: rest ∧ chooseVar (BCP F A).1 = some |l| ∧
      (WellFormed numVar F →
        WellFormed numVar (BCP F A).1 ∧ 1 ≤ |l| ∧ |l| ≤ numVar) := by
  obtain ⟨l, c, rest, hR⟩ := chooseVar_defined h1 h2
  refine ⟨l, c, rest, hR, by rw [hR]; rfl, fun hwf => ?_⟩
  have hwf2 := wellFormed_BCP A hwf
  refine ⟨hwf2, ?_, ?_⟩
  · have hl := (hwf2 (l :: c) (by rw [hR]; exact List.mem_cons_self _ _) l
      (List.mem_cons_self _ _)).1
    exact Order.one_le_iff_pos.2 (abs_pos.2 hl)
  · exact (hwf2 (l :: c) (by rw [hR]; exact List.mem_cons_self _ _) l
      (List.mem_cons_self _ _)).2

theorem C17_chooseVar_precondition_witness :
    ¬ (BCP [[1, 2, 3]] []).1.length = 0 ∧ ¬ haveConflict (BCP [[1, 2, 3]] []).1 = true ∧
      ∃ l c rest, (BCP [[1, 2, 3]] []).1 = (l :: c) :: rest ∧
        chooseVar (BCP [[1, 2, 3]] []).1 = some |l| ∧
        (WellFormed 3 [[1, 2, 3]] →
          WellFormed 3 (BCP [[1, 2, 3]] []).1 ∧ 1 ≤ |l| ∧ |l| ≤ 3) :=
  have h1 : ¬ (BCP [[1, 2, 3]] []).1.length = 0 := by rw [BCP_clause123]; decide
  have h2 : ¬ haveConflict (BCP [[1, 2, 3]] []).1 = true := by rw [BCP_clause123]; decide
  ⟨h1, h2, C17_chooseVar_precondition 3 [[1, 2, 3]] [] h1 h2⟩

/-- C18 (recursion depth). For a well-formed formula over `numVar` variables
solved from the empty assignment, the depth-bounded `solve` with a bound of at
least `numVar + 1` stacked calls, the root included, never hits the bound and
returns what `solve` returns; each branch step decides a variable that occurs
in the propagated formula and in no formula of a deeper call. -/
theorem C18_recursion_depth (numVar : Int) (F : Formula) (st : Asgmt)
    (hwf : WellFormed numVar F) :
    (∀ fuel, numVar.toNat + 1 ≤ fuel → solveFuel fuel F [] st = some (solve F [] st)) ∧
      ∀ (G : Formula) (A : Asgmt) (v : Var) (value : Bool),
        chooseVar (BCP G A).1 = some v →
          v.natAbs ∈ varsOf (BCP G A).1 ∧
            v.natAbs ∉ varsOf (applyAsgmt (BCP G A).1 ((BCP G A).2 ++ [getLit v value])) := by
  refine ⟨fun fuel hf => ?_, fun G A v value hv => chosen_var_eliminated hv _ value⟩
  apply solveFuel_eq_solve
  have := card_varsOf_le hwf
  rw [applyAsgmt_nil]
  omega

theorem C18_recursion_depth_witness :
    WellFormed 3 [[1, 2, 3]] ∧ solveFuel 4 [[1, 2, 3]] [] [] = some (some (true, [1])) :=
  ⟨by unfold WellFormed; decide, by
    rw [(C18_recursion_depth 3 [[1, 2, 3]] [] (by unfold WellFormed; decide)).1 4 (by decide),
      solve_clause123]⟩

/-- C19 (termination of `BCP`). `BCP` returns on every formula and assignment,
in a loop state where the scan finds no unit clause and after at most as many
restarts as `applyAsgmt F A` has clauses; at every restart the unit clause
found is in the working copy and not in the next one, and the next working
copy has fewer clauses and a smaller clause-plus-literal count. -/
theorem C19_BCP_terminates (F : Formula) (A : Asgmt) :
    (BcpState F A (BCP F A).1 (BCP F A).2 ∧ firstUnit (BCP F A).1 = none) ∧
      (BCP F A).2.length + (BCP F A).1.length ≤ A.length + (applyAsgmt F A).length ∧
      ∀ W B l, BcpState F A W B → firstUnit W = some l →
        [l] ∈ W ∧ [l] ∉ applyAsgmt W (B ++ [l]) ∧
          (applyAsgmt W (B ++ [l])).length < W.length ∧
          fsize (applyAsgmt W (B ++ [l])) < fsize W := by
  refine ⟨⟨bcpState_bcpLoop _ A BcpState.init, ?_⟩,
    bcpLoop_length_bound _ A (applyAsgmt_absent F A), ?_⟩
  · exact firstUnit_eq_none (bcpLoop_no_unit _ A)
  · intro W B l hs hl
    have hm := firstUnit_mem hl
    have hin : l ∈ B ++ [l] := List.mem_append_right _ (List.mem_singleton_self _)
    refine ⟨hm, ?_, ?_, ?_⟩
    · intro hmem
      exact (applyAsgmt_absent W (B ++ [l]) _ hmem l hin).1 (List.mem_singleton_self _)
    · rw [restart_eq_applyLit l (bcpState_absent hs)]
      exact length_applyLit_lt ⟨[l], hm, List.mem_singleton_self _⟩
    · exact fsize_applyAsgmt_lt W (B ++ [l])
        ⟨l, hin, [l], hm, Or.inl (List.mem_singleton_self _)⟩

/-- C20. For every formula with nonzero literals and every assignment,
`haveConflict` on the formula returned by `BCP` is true exactly when that
formula has an empty clause or a clause holding a literal and its negation; it
has no two unit clauses with opposite literals. -/
theorem C20_unit_test_never_decides (F : Formula) (A : Asgmt)
    (hz : ∀ c ∈ F, ∀ l ∈ c, l ≠ (0 : Lit)) :
    (haveConflict (BCP F A).1 = true ↔
      (∃ c ∈ (BCP F A).1, c = []) ∨ (∃ c ∈ (BCP F A).1, ∃ l ∈ c, -l ∈ c)) ∧
      ¬ ∃ l, [l] ∈ (BCP F A).1 ∧ [-l] ∈ (BCP F A).1 := by
  refine ⟨haveConflict_BCP_iff F A (fun c hc h0 => hz c hc 0 h0 rfl), ?_⟩
  rintro ⟨l, hl, _⟩
  exact bcpLoop_no_unit _ A _ hl rfl

theorem C20_unit_test_never_decides_witness :
    (∀ c ∈ ([[1], [-1]] : Formula), ∀ l ∈ c, l ≠ (0 : Lit)) ∧
      ((haveConflict (BCP [[1], [-1]] []).1 = true ↔
        (∃ c ∈ (BCP [[1], [-1]] []).1, c = []) ∨
          (∃ c ∈ (BCP [[1], [-1]] []).1, ∃ l ∈ c, -l ∈ c)) ∧
        ¬ ∃ l, [l] ∈ (BCP [[1], [-1]] []).1 ∧ [-l] ∈ (BCP [[1], [-1]] []).1) :=
  ⟨by decide, C20_unit_test_never_decides [[1], [-1]] [] (by decide)⟩

end DPLL
